import Mathlib

/-!
# WebSocket output for beats: publishing engine

A shallow embedding of `pkg/ws_client.go` (the `wsClient` output of
`shoothzj/beats_output_websocket`) and proofs about its batch publishing and
event encoding.

Conventions of the embedding.

* A Go `error` is `Option Error`: `none` is the nil error.
* A Go `[]byte` returned by `encode` is `Option Bytes`: `none` is the nil slice.
* A Go `string` is a Lean `String`; Go's `len` counts bytes (`goLen`).
* Values stored in a `common.MapStr` are dynamically typed (`interface{}`); the
  type `Value` lists the dynamic types this program asserts on, and one
  constructor for every other dynamic type.
* Calls on the collaborators (the observer, the connection, the batch) are
  recorded, in order, in a trace of `Effect`s. What the connection answers to a
  write is given by the environment (`Env.conn`).
* `json.Marshal` / `json.Unmarshal` belong to Go's standard library; they are
  fields of the environment.
* The diagnostic `fmt.Println(reflect.TypeOf(log))` of `encode` writes to the
  standard output only; the standard output is not part of the modelled state.
* `Connect` records its calls (dial, ticker, start of the keepalive task, sleep)
  in the client state; the body of the keepalive task runs concurrently and is
  not modelled beyond its start.
-/

namespace WsOutput

/-- A Go error value, identified by its message. -/
abbrev Error := String

/-- A byte sequence; every element stands for one byte. -/
abbrev Bytes := List Nat

/-- Go's `len` on a string: the number of bytes. -/
def goLen (s : String) : Int := (s.utf8ByteSize : Int)

/-- A `time.Time` instant. -/
structure Time where
  unixNano : Int
deriving DecidableEq, Repr

/-- A dynamically typed value held in a `common.MapStr` (a Go `interface{}`).
`other` stands for a value of any dynamic type that is none of `string`,
`int64`, `[]string` and `common.MapStr` (for instance `int`, `float64`,
`[]interface{}` or `map[string]interface{}`). -/
inductive Value where
  | str (s : String)
  | int64 (n : Int)
  | strList (l : List String)
  | mapStr (m : List (String × Value))
  | other (goType : String)

/-- The type `common.MapStr`: a map from string keys to dynamically typed values.
The nil map is the empty list. -/
abbrev MapStr := List (String × Value)

/-- The error `common.ErrKeyNotFound` of libbeat. -/
def ErrKeyNotFound : Error := "key not found"

/-- The method `common.MapStr.GetValue` of libbeat, for the keys this program
passes (none contains a dot): the value stored under the key with a nil error,
or a nil value with `ErrKeyNotFound`. A nil map holds no key. -/
def GetValue (m : MapStr) (key : String) : Option Value × Option Error :=
  match m.lookup key with
  | some v => (some v, none)
  | none => (none, some ErrKeyNotFound)

/-- The type assertion `v.(common.MapStr)`. -/
def asMapStr : Option Value → Option MapStr
  | some (Value.mapStr m) => some m
  | _ => none

/-- The type assertion `v.(string)`. -/
def asString : Option Value → Option String
  | some (Value.str s) => some s
  | _ => none

/-- The type assertion `v.(int64)`. -/
def asInt64 : Option Value → Option Int
  | some (Value.int64 n) => some n
  | _ => none

/-- The type assertion `v.([]string)`. -/
def asStringSlice : Option Value → Option (List String)
  | some (Value.strList l) => some l
  | _ => none

/-- The struct `LogOutput`: the record sent on the wire. -/
structure LogOutput where
  Timestamp : Time
  Message : String
  FileName : String
  FileOffset : Int
  Hostname : String
  IpList : List String
  MacList : List String
  Arch : String
deriving DecidableEq, Repr

/-- The zero value `&LogOutput{}`. -/
def LogOutput.zero : LogOutput :=
  { Timestamp := ⟨0⟩, Message := "", FileName := "", FileOffset := 0,
    Hostname := "", IpList := [], MacList := [], Arch := "" }

/-- The struct `beat.Event`, with the two fields the output reads. -/
structure beat.Event where
  Timestamp : Time
  Fields : MapStr

/-- The struct `publisher.Event`. -/
structure publisher.Event where
  Content : beat.Event

/-- The construct fields of `wsClient`. `MaxLen` is a Go `int`. -/
structure wsClient where
  Schema : String
  Host : String
  Path : String
  PingInterval : Int
  MaxLen : Int

/-- One call on a collaborator of the client, as it appears in the trace. -/
inductive Effect where
  /-- The call `w.stats.NewBatch(n)`. -/
  | newBatch (n : Nat)
  /-- The call `w.encode(&event.Content)` made by `publishEvent`. -/
  | encoded (event : publisher.Event)
  /-- The call `w.conn.WriteMessage(websocket.TextMessage, data)` with the
  payload of the frame and the error it returned. -/
  | write (data : Bytes) (err : Option Error)
  /-- The call `batch.ACK()`. -/
  | ack
  /-- The call `batch.RetryEvents(events)`. -/
  | retry (events : List publisher.Event)

/-- The calls made so far, oldest first. -/
abbrev Trace := List Effect

/-- The collaborators outside the repository. `conn tr data` is the error that
the connection returns to a write of the payload `data` after the calls `tr`;
`Marshal` and `Unmarshal` are `json.Marshal` and `json.Unmarshal` at the type
`LogOutput`. -/
structure Env where
  conn : Trace → Bytes → Option Error
  Marshal : LogOutput → Except Error Bytes
  Unmarshal : Bytes → Option LogOutput

/-- The pair `([]byte, error)` that `json.Marshal` returns. -/
def Env.jsonMarshal (env : Env) (v : LogOutput) : Option Bytes × Option Error :=
  match env.Marshal v with
  | Except.ok b => (some b, none)
  | Except.error e => (none, some e)

/-- The call `w.conn.WriteMessage(websocket.TextMessage, data)`: one text frame
is attempted with the payload `data` (empty for a nil slice). -/
def WriteMessage (env : Env) (data : Option Bytes) (tr : Trace) : Trace × Option Error :=
  let payload := data.getD []
  let err := env.conn tr payload
  (tr ++ [Effect.write payload err], err)

/-- The function `logMapConvert`, with its named results `(offset, file, err)`. -/
def logMapConvert (logMap : MapStr) : Int × String × Option Error :=
  match GetValue logMap "offset" with
  | (_, some err) => (0, "", some err)
  | (offsetVal, none) =>
    match asInt64 offsetVal with
    | none => (0, "", some "cast offset to int64 failed")
    | some offset =>
      match GetValue logMap "file" with
      | (_, some err) => (offset, "", some err)
      | (fileVal, none) =>
        match asMapStr fileVal with
        | none => (offset, "", some "cast file to map failed")
        | some fileMapVal =>
          match GetValue fileMapVal "path" with
          | (_, some err) => (offset, "", some err)
          | (pathVal, none) =>
            match asString pathVal with
            | none => (offset, "", some "cast file to string failed")
            | some file => (offset, file, none)

/-- The function `hostMapConvert`, with its named results
`(ipList, macList, arch, err)`. -/
def hostMapConvert (hostMap : MapStr) :
    List String × List String × String × Option Error :=
  match GetValue hostMap "ip" with
  | (_, some err) => ([], [], "", some err)
  | (ipListVal, none) =>
    match asStringSlice ipListVal with
    | none => ([], [], "", some "cast failed")
    | some ipList =>
      match GetValue hostMap "mac" with
      | (_, some err) => (ipList, [], "", some err)
      | (macListVal, none) =>
        match asStringSlice macListVal with
        | none => (ipList, [], "", some "cast failed")
        | some macList =>
          match GetValue hostMap "architecture" with
          | (_, some err) => (ipList, macList, "", some err)
          | (architectureVal, none) =>
            match asString architectureVal with
            | none => (ipList, macList, "", some "cast failed")
            | some arch => (ipList, macList, arch, none)

/-- The method `wsClient.encodeInner`. -/
def encodeInner (env : Env) (_w : wsClient) (time : Time) (s : String)
    (logMap : MapStr) (hostMap : MapStr) : Option Bytes × Option Error :=
  match logMapConvert logMap with
  | (_, _, some err) => (none, some err)
  | (offset, file, none) =>
    match hostMapConvert hostMap with
    | (_, _, _, some err) => (none, some err)
    | (ipList, macList, arch, none) =>
      let logOutput : LogOutput :=
        { LogOutput.zero with
          Timestamp := time, Message := s, FileOffset := offset, FileName := file,
          IpList := ipList, MacList := macList, Arch := arch }
      env.jsonMarshal logOutput

/-- The method `wsClient.encode`. Each `err` is the variable of the source: the
length check returns `nil, err` with the `err` that the preceding `GetValue`
assigned. -/
def encode (env : Env) (w : wsClient) (event : beat.Event) : Option Bytes × Option Error :=
  let (log, err) := GetValue event.Fields "log"
  match err with
  | some _ => (none, err)
  | none =>
    match asMapStr log with
    | none => (none, some "cast log meta to map failed")
    | some logMapVal =>
      let (value, err) := GetValue event.Fields "message"
      match err with
      | some _ => (none, err)
      | none =>
        match asString value with
        | none => (none, some "cast log to str failed")
        | some s =>
          if goLen s ≥ w.MaxLen then (none, err)
          else
            let (hostValue, err) := GetValue event.Fields "host"
            match err with
            | none =>
              match asMapStr hostValue with
              | none => encodeInner env w event.Timestamp s logMapVal []
              | some hostMapVal => encodeInner env w event.Timestamp s logMapVal hostMapVal
            | some _ => encodeInner env w event.Timestamp s logMapVal []

/-- The method `wsClient.publishEvent`. -/
def publishEvent (env : Env) (w : wsClient) (event : publisher.Event) (tr : Trace) :
    Trace × Option Error :=
  let tr := tr ++ [Effect.encoded event]
  let (bytes, err) := encode env w event.Content
  match err with
  | some _ => (tr, none)
  | none =>
    let (tr, err) := WriteMessage env bytes tr
    match err with
    | some _ => (tr, err)
    | none => (tr, none)

/-- The method `wsClient.PublishEvents`. The loop `for i, event := range events`
is the recursion on the events still to visit: at index `i` they are
`events[i:]`, which is what the loop returns when `publishEvent` fails. -/
def PublishEvents (env : Env) (w : wsClient) :
    List publisher.Event → Trace → List publisher.Event × Option Error × Trace
  | [], tr => ([], none, tr)
  | event :: rest, tr =>
    match publishEvent env w event tr with
    | (tr, some err) => (event :: rest, some err, tr)
    | (tr, none) => PublishEvents env w rest tr

/-- The method `wsClient.Publish`; `batch` is the value of `batch.Events()`. The
result is the trace after the call and the error returned. -/
def Publish (env : Env) (w : wsClient) (batch : List publisher.Event) (tr : Trace) :
    Trace × Option Error :=
  let events := batch
  let tr := tr ++ [Effect.newBatch events.length]
  let (failEvents, err, tr) := PublishEvents env w events tr
  match err with
  | some _ => (tr ++ [Effect.ack], err)
  | none => (tr ++ [Effect.retry failEvents], err)

/-! ## Reading a trace -/

/-- The events handed to `encode`, in call order. -/
def encodedEvents : Trace → List publisher.Event
  | [] => []
  | Effect.encoded ev :: tr => ev :: encodedEvents tr
  | _ :: tr => encodedEvents tr

/-- The write calls of a trace, in call order: payload and returned error. -/
def writes : Trace → List (Bytes × Option Error)
  | [] => []
  | Effect.write d e :: tr => (d, e) :: writes tr
  | _ :: tr => writes tr

/-- The completion calls of a trace (`batch.ACK` and `batch.RetryEvents`). -/
def completions : Trace → List Effect
  | [] => []
  | Effect.ack :: tr => Effect.ack :: completions tr
  | Effect.retry evs :: tr => Effect.retry evs :: completions tr
  | _ :: tr => completions tr

/-- The trace after `publishEvent` has run on each event of the list in turn,
whatever each call returned. -/
def traceAfter (env : Env) (w : wsClient) : List publisher.Event → Trace → Trace
  | [], tr => tr
  | event :: rest, tr => traceAfter env w rest (publishEvent env w event tr).1

/-! ## Concrete collaborators and events -/

/-- A serializer for concrete scenarios: the code points of the message followed
by those of the file name. It stands for `json.Marshal` where only the presence
of a payload matters. -/
def sampleMarshal (v : LogOutput) : Except Error Bytes :=
  Except.ok ((v.Message.toList ++ v.FileName.toList).map Char.toNat)

/-- An environment whose connection accepts every write. -/
def envUp : Env :=
  { conn := fun _ _ => none, Marshal := sampleMarshal, Unmarshal := fun _ => none }

/-- An environment whose connection fails every write. -/
def envDown : Env :=
  { conn := fun _ _ => some "broken pipe", Marshal := sampleMarshal,
    Unmarshal := fun _ => none }

/-- A client with `max_len = 10`. -/
def client10 : wsClient :=
  { Schema := "ws", Host := "localhost:8080", Path := "/ws", PingInterval := 5, MaxLen := 10 }

/-- A well-formed `log` field. -/
def sampleLog : Value :=
  Value.mapStr [("offset", Value.int64 42),
    ("file", Value.mapStr [("path", Value.str "/var/log/a.log")])]

/-- A well-formed `host` field. -/
def sampleHost : Value :=
  Value.mapStr [("ip", Value.strList ["10.0.0.1"]), ("mac", Value.strList ["aa:bb"]),
    ("architecture", Value.str "x86_64")]

/-- A well-formed event with the message `hi`. -/
def evGood : publisher.Event :=
  ⟨{ Timestamp := ⟨1000⟩,
     Fields := [("message", Value.str "hi"), ("log", sampleLog), ("host", sampleHost)] }⟩

/-- An environment whose connection fails the write number `n` (counted from 0
over the trace) and accepts every other write. -/
def envFailAt (n : Nat) : Env :=
  { conn := fun tr _ => if (writes tr).length = n then some "broken pipe" else none,
    Marshal := sampleMarshal, Unmarshal := fun _ => none }

/-- A well-formed event with the message `two`. -/
def evTwo : publisher.Event :=
  ⟨{ Timestamp := ⟨2000⟩,
     Fields := [("message", Value.str "two"), ("log", sampleLog), ("host", sampleHost)] }⟩

/-- A well-formed event with the message `three`. -/
def evThree : publisher.Event :=
  ⟨{ Timestamp := ⟨3000⟩,
     Fields := [("message", Value.str "three"), ("log", sampleLog), ("host", sampleHost)] }⟩

/-- An event whose `message` is not a string (an `int64`); its other fields are
well-formed. -/
def evMessageNotString : publisher.Event :=
  ⟨{ Timestamp := ⟨4000⟩,
     Fields := [("message", Value.int64 7), ("log", sampleLog), ("host", sampleHost)] }⟩

/-- A well-formed event whose message has exactly `max_len = 10` bytes. -/
def evLong : publisher.Event :=
  ⟨{ Timestamp := ⟨6000⟩,
     Fields := [("message", Value.str "0123456789"), ("log", sampleLog),
       ("host", sampleHost)] }⟩

/-- An event whose `log` map has neither `offset` nor `file`, with a message of
12 bytes. -/
def evNoOffsetLong : publisher.Event :=
  ⟨{ Timestamp := ⟨7000⟩,
     Fields := [("message", Value.str "0123456789ab"), ("log", Value.mapStr []),
       ("host", sampleHost)] }⟩

/-- An event with a valid `log`, a short message and a `host` map whose `ip` is
not a `[]string`. -/
def evHostBadIp : publisher.Event :=
  ⟨{ Timestamp := ⟨8000⟩,
     Fields := [("message", Value.str "hi"), ("log", sampleLog),
       ("host", Value.mapStr [("ip", Value.other "[]interface {}"),
         ("mac", Value.strList ["aa:bb"]), ("architecture", Value.str "x86_64")])] }⟩

/-- The law of a serializer with its parser: wherever `Marshal` succeeds,
`Unmarshal` gives the record back. -/
def Env.UnmarshalInvertsMarshal (env : Env) : Prop :=
  ∀ v b, env.Marshal v = Except.ok b → env.Unmarshal b = some v

/-- The code points of a string. -/
def strCode (s : String) : List Nat := s.toList.map Char.toNat

/-- The string of a list of code points. -/
def strOfCode (l : List Nat) : String := String.mk (l.map Char.ofNat)

/-- The fields of a record as a tuple of integers and lists of naturals. -/
def LogOutput.toTuple (v : LogOutput) :
    Int × List Nat × List Nat × Int × List Nat × List (List Nat) × List (List Nat) × List Nat :=
  (v.Timestamp.unixNano, strCode v.Message, strCode v.FileName, v.FileOffset,
    strCode v.Hostname, v.IpList.map strCode, v.MacList.map strCode, strCode v.Arch)

/-- The record of a tuple of fields. -/
def LogOutput.ofTuple :
    Int × List Nat × List Nat × Int × List Nat × List (List Nat) × List (List Nat) × List Nat
      → LogOutput
  | (t, m, f, o, h, i, c, a) =>
    { Timestamp := ⟨t⟩, Message := strOfCode m, FileName := strOfCode f, FileOffset := o,
      Hostname := strOfCode h, IpList := i.map strOfCode, MacList := c.map strOfCode,
      Arch := strOfCode a }

/-- A binary serializer that has a parser: the base-256 digits of the number that
encodes the tuple of fields. -/
def numberedMarshal (v : LogOutput) : Except Error Bytes :=
  Except.ok (Nat.digits 256 (Encodable.encode v.toTuple))

/-- The parser of `numberedMarshal`. -/
def numberedUnmarshal (b : Bytes) : Option LogOutput :=
  (Encodable.decode (Nat.ofDigits 256 b)).map LogOutput.ofTuple

/-- An environment whose serializer has a parser, over a connection that accepts
every write. -/
def envRoundTrip : Env :=
  { conn := fun _ _ => none, Marshal := numberedMarshal, Unmarshal := numberedUnmarshal }

/-! ## Frames of a batch -/

/-- The payload of the frame that `publishEvent` writes for an event: the bytes
that `encode` returned (empty for a nil slice). -/
def payloadOf (env : Env) (w : wsClient) (event : publisher.Event) : Bytes :=
  (encode env w event.Content).1.getD []

/-- The payloads of the events of a list, in list order, leaving out the events
for which `encode` returns a non-nil error. -/
def framesOf (env : Env) (w : wsClient) : List publisher.Event → List Bytes
  | [] => []
  | event :: rest =>
    match (encode env w event.Content).2 with
    | some _ => framesOf env w rest
    | none => payloadOf env w event :: framesOf env w rest

/-- The payloads of the writes that returned a nil error, in call order. -/
def sentFrames : List (Bytes × Option Error) → List Bytes
  | [] => []
  | (d, none) :: ws => d :: sentFrames ws
  | (_, some _) :: ws => sentFrames ws

/-- The writes made between two traces, the second extending the first. -/
def newWrites (before after : Trace) : List (Bytes × Option Error) :=
  (writes after).drop (writes before).length

/-- The batch sizes reported to the observer, in call order. -/
def newBatches : Trace → List Nat
  | [] => []
  | Effect.newBatch n :: tr => n :: newBatches tr
  | _ :: tr => newBatches tr

/-- The conditions on an event under which the encoder goes as far as
`json.Marshal`: `log` is a map with an `int64` offset and a `file` map whose
`path` is a string, `message` is a string shorter than `MaxLen`, and `host` is
a map whose `ip` and `mac` are string lists and whose `architecture` is a
string. -/
def WellFormed (w : wsClient) (event : beat.Event) : Prop :=
  ∃ (logMap fileMap hostMap : MapStr) (offset : Int) (path s arch : String)
    (ips macs : List String),
    event.Fields.lookup "log" = some (Value.mapStr logMap) ∧
    logMap.lookup "offset" = some (Value.int64 offset) ∧
    logMap.lookup "file" = some (Value.mapStr fileMap) ∧
    fileMap.lookup "path" = some (Value.str path) ∧
    event.Fields.lookup "message" = some (Value.str s) ∧
    goLen s < w.MaxLen ∧
    event.Fields.lookup "host" = some (Value.mapStr hostMap) ∧
    hostMap.lookup "ip" = some (Value.strList ips) ∧
    hostMap.lookup "mac" = some (Value.strList macs) ∧
    hostMap.lookup "architecture" = some (Value.str arch)

/-- A serializer whose output is never empty: the code points of the message and
of the file name between the codes of an opening and a closing brace. -/
def bracedMarshal (v : LogOutput) : Except Error Bytes :=
  Except.ok (123 :: ((v.Message.toList ++ v.FileName.toList).map Char.toNat ++ [125]))

/-- An environment with the serializer `bracedMarshal` over a connection that
accepts every write. -/
def envBraced : Env :=
  { conn := fun _ _ => none, Marshal := bracedMarshal, Unmarshal := fun _ => none }

/-- A client whose `max_len` was left at the zero value. -/
def client0 : wsClient :=
  { Schema := "ws", Host := "localhost:8080", Path := "/ws", PingInterval := 5, MaxLen := 0 }

/-! ## Connecting -/

/-- The value `url.URL{Scheme: .., Host: .., Path: ..}` handed to the dialer. -/
structure URL where
  Scheme : String
  Host : String
  Path : String
deriving DecidableEq, Repr

/-- A `*websocket.Conn`, identified by a number. -/
abbrev ConnHandle := Nat

/-- The constant `time.Second`, in nanoseconds. -/
def Second : Int := 1000000000

/-- The value of an integer expression in Go's `int64` arithmetic. -/
def wrapInt64 (x : Int) : Int := (x + 2 ^ 63) % 2 ^ 64 - 2 ^ 63

/-- One call made by `Connect`; durations are in nanoseconds. -/
inductive ConnectCall where
  /-- The call `websocket.DefaultDialer.Dial(u.String(), nil)`. -/
  | dial (u : URL)
  /-- The call `time.NewTicker(d)`. -/
  | newTicker (d : Int)
  /-- The statement `go func() ...`: the keepalive task on the ticker of period
  `d` is started. -/
  | goKeepalive (d : Int)
  /-- The call `time.Sleep(d)`. -/
  | sleep (d : Int)
deriving DecidableEq, Repr

/-- The field `w.conn` (nil before the first successful dial) and the calls
`Connect` has made, oldest first. -/
structure ClientState where
  conn : Option ConnHandle
  calls : List ConnectCall
deriving DecidableEq, Repr

/-- How a call of `Connect` ends: it returns an error value, or it panics. -/
inductive ConnectResult where
  | returned (st : ClientState) (err : Option Error)
  | panicked (st : ClientState)
deriving DecidableEq, Repr

/-- The argument of `time.NewTicker` in `Connect`:
`time.Duration(w.PingInterval) * time.Second`. -/
def tickerPeriod (w : wsClient) : Int := wrapInt64 (wrapInt64 w.PingInterval * Second)

/-- The method `wsClient.Connect`. `dial` is what
`websocket.DefaultDialer.Dial` returns for the URL (the connection and the
error). `time.NewTicker` of Go's standard library panics when its argument is
not positive. -/
def Connect (dial : URL → Option ConnHandle × Option Error) (w : wsClient)
    (st : ClientState) : ConnectResult :=
  let u : URL := { Scheme := w.Schema, Host := w.Host, Path := w.Path }
  let (dialed, err) := dial u
  let st : ClientState := { st with calls := st.calls ++ [ConnectCall.dial u] }
  match err with
  | none =>
    let st : ClientState := { st with conn := dialed }
    let d := tickerPeriod w
    let st : ClientState := { st with calls := st.calls ++ [ConnectCall.newTicker d] }
    if d ≤ 0 then ConnectResult.panicked st
    else
      ConnectResult.returned { st with calls := st.calls ++ [ConnectCall.goKeepalive d] } err
  | some _ =>
    ConnectResult.returned
      { st with calls := st.calls ++ [ConnectCall.sleep (10 * Second)] } err

/-- A client whose `ping_interval` was left at the zero value. -/
def clientNoPing : wsClient :=
  { Schema := "ws", Host := "localhost:8080", Path := "/ws", PingInterval := 0, MaxLen := 10 }

/-- A dialer that succeeds with the connection number 7. -/
def dialUp : URL → Option ConnHandle × Option Error := fun _ => (some 7, none)

/-- A dialer that fails. -/
def dialDown : URL → Option ConnHandle × Option Error :=
  fun _ => (none, some "connection refused")

/-! ## The scenario of four events -/

/-- A client with `max_len = 200`. -/
def client200 : wsClient :=
  { Schema := "ws", Host := "localhost:8080", Path := "/ws", PingInterval := 5, MaxLen := 200 }

/-- A message of 500 bytes. -/
def message500 : String := String.mk (List.replicate 500 'a')

/-- A valid event with the message `ev0`. -/
def scenarioEv0 : publisher.Event :=
  ⟨{ Timestamp := ⟨100⟩,
     Fields := [("message", Value.str "ev0"), ("log", sampleLog), ("host", sampleHost)] }⟩

/-- An event with a message of 500 bytes; its other fields are valid. -/
def scenarioEv1 : publisher.Event :=
  ⟨{ Timestamp := ⟨101⟩,
     Fields := [("message", Value.str message500), ("log", sampleLog),
       ("host", sampleHost)] }⟩

/-- A valid event with the message `ev2`. -/
def scenarioEv2 : publisher.Event :=
  ⟨{ Timestamp := ⟨102⟩,
     Fields := [("message", Value.str "ev2"), ("log", sampleLog), ("host", sampleHost)] }⟩

/-- A valid event with the message `ev3`. -/
def scenarioEv3 : publisher.Event :=
  ⟨{ Timestamp := ⟨103⟩,
     Fields := [("message", Value.str "ev3"), ("log", sampleLog), ("host", sampleHost)] }⟩

/-- The payload of `scenarioEv3` under `sampleMarshal`. -/
def scenarioPayload3 : Bytes := ("ev3".toList ++ "/var/log/a.log".toList).map Char.toNat

/-- An environment whose connection fails the write of the payload of
`scenarioEv3` and accepts every other write. -/
def envScenario : Env :=
  { conn := fun _ d => if d = scenarioPayload3 then some "broken pipe" else none,
    Marshal := sampleMarshal, Unmarshal := fun _ => none }

/-! ## A serializer that checks the year of the timestamp -/

/-- The instant `0000-01-01T00:00:00Z`, in nanoseconds since the Unix epoch. -/
def yearZeroStart : Int := -62167219200 * 1000000000

/-- The instant `10000-01-01T00:00:00Z`, in nanoseconds since the Unix epoch. -/
def yearTenThousandStart : Int := 253402300800 * 1000000000

/-- The error that `json.Marshal` returns when `Time.MarshalJSON` refuses a
timestamp. -/
def ErrYearOutOfRange : Error :=
  "json: error calling MarshalJSON for type time.Time: " ++
    "Time.MarshalJSON: year outside of range [0,9999]"

/-- A serializer that, as `json.Marshal` does through `Time.MarshalJSON`, refuses
a record whose timestamp has a year outside `0..9999` (in UTC), and serializes
the other records as `sampleMarshal` does. -/
def yearCheckedMarshal (v : LogOutput) : Except Error Bytes :=
  if yearZeroStart ≤ v.Timestamp.unixNano ∧ v.Timestamp.unixNano < yearTenThousandStart then
    sampleMarshal v
  else Except.error ErrYearOutOfRange

/-- An environment with the serializer `yearCheckedMarshal` over a connection
that accepts every write. -/
def envYearChecked : Env :=
  { conn := fun _ _ => none, Marshal := yearCheckedMarshal, Unmarshal := fun _ => none }

/-- A well-formed event whose timestamp is the first instant of the year 10000. -/
def evYear10000 : publisher.Event :=
  ⟨{ Timestamp := ⟨253402300800000000000⟩,
     Fields := [("message", Value.str "hi"), ("log", sampleLog), ("host", sampleHost)] }⟩

/-- A well-formed event whose timestamp is the last nanosecond before the year
0. -/
def evBeforeYear0 : publisher.Event :=
  ⟨{ Timestamp := ⟨-62167219200000000001⟩,
     Fields := [("message", Value.str "hi"), ("log", sampleLog), ("host", sampleHost)] }⟩

/-! ## Traces are homomorphic readings -/

theorem encodedEvents_append (a b : Trace) :
    encodedEvents (a ++ b) = encodedEvents a ++ encodedEvents b := by
  induction a with
  | nil => rfl
  | cons x a ih => cases x <;> simp [encodedEvents, ih]

theorem writes_append (a b : Trace) : writes (a ++ b) = writes a ++ writes b := by
  induction a with
  | nil => rfl
  | cons x a ih => cases x <;> simp [writes, ih]

theorem completions_append (a b : Trace) :
    completions (a ++ b) = completions a ++ completions b := by
  induction a with
  | nil => rfl
  | cons x a ih => cases x <;> simp [completions, ih]

/-! ## One event -/

/-- When `encode` returns an error, `publishEvent` only records the encode call
and returns nil. -/
theorem publishEvent_of_encode_error (env : Env) (w : wsClient) (event : publisher.Event)
    (tr : Trace) (e : Error) (h : (encode env w event.Content).2 = some e) :
    publishEvent env w event tr = (tr ++ [Effect.encoded event], none) := by
  unfold publishEvent
  rcases hx : encode env w event.Content with ⟨bytes, err⟩
  rw [hx] at h
  simp only at h
  subst h
  rfl

/-- When `encode` returns a nil error, `publishEvent` writes the returned bytes
and returns what the write returned. -/
theorem publishEvent_of_encode_ok (env : Env) (w : wsClient) (event : publisher.Event)
    (tr : Trace) (h : (encode env w event.Content).2 = none) :
    publishEvent env w event tr =
      (tr ++ [Effect.encoded event,
          Effect.write ((encode env w event.Content).1.getD [])
            (env.conn (tr ++ [Effect.encoded event]) ((encode env w event.Content).1.getD []))],
        env.conn (tr ++ [Effect.encoded event]) ((encode env w event.Content).1.getD [])) := by
  unfold publishEvent
  rcases hx : encode env w event.Content with ⟨bytes, err⟩
  rw [hx] at h
  simp only at h
  subst h
  simp only [WriteMessage]
  cases hc : env.conn (tr ++ [Effect.encoded event]) (bytes.getD []) <;> simp

/-- The two shapes of the trace that `publishEvent` leaves. -/
theorem publishEvent_trace (env : Env) (w : wsClient) (event : publisher.Event) (tr : Trace) :
    ((publishEvent env w event tr).1 = tr ++ [Effect.encoded event] ∧
        (publishEvent env w event tr).2 = none) ∨
      ∃ d, (publishEvent env w event tr).1 =
          tr ++ [Effect.encoded event, Effect.write d (publishEvent env w event tr).2] := by
  cases h : (encode env w event.Content).2 with
  | some e => left; rw [publishEvent_of_encode_error env w event tr e h]; simp
  | none => right; rw [publishEvent_of_encode_ok env w event tr h]; exact ⟨_, rfl⟩

theorem encodedEvents_publishEvent (env : Env) (w : wsClient) (event : publisher.Event)
    (tr : Trace) :
    encodedEvents (publishEvent env w event tr).1 = encodedEvents tr ++ [event] := by
  rcases publishEvent_trace env w event tr with ⟨h, _⟩ | ⟨d, h⟩ <;>
    rw [h, encodedEvents_append] <;> simp [encodedEvents]

theorem completions_publishEvent (env : Env) (w : wsClient) (event : publisher.Event)
    (tr : Trace) : completions (publishEvent env w event tr).1 = completions tr := by
  rcases publishEvent_trace env w event tr with ⟨h, _⟩ | ⟨d, h⟩ <;>
    rw [h, completions_append] <;> simp [completions]

theorem writes_publishEvent_length (env : Env) (w : wsClient) (event : publisher.Event)
    (tr : Trace) : (writes (publishEvent env w event tr).1).length ≤ (writes tr).length + 1 := by
  rcases publishEvent_trace env w event tr with ⟨h, _⟩ | ⟨d, h⟩ <;>
    rw [h, writes_append] <;> simp [writes]

/-- A non-nil error of `publishEvent` is the error of the write it made, and
that write is the last call of the trace. -/
theorem publishEvent_error_last (env : Env) (w : wsClient) (event : publisher.Event)
    (tr : Trace) (e : Error) (h : (publishEvent env w event tr).2 = some e) :
    ∃ d, (publishEvent env w event tr).1.getLast? = some (Effect.write d (some e)) := by
  rcases publishEvent_trace env w event tr with ⟨_, h2⟩ | ⟨d, h1⟩
  · rw [h2] at h; cases h
  · refine ⟨d, ?_⟩
    rw [h1, h]
    simp

/-! ## The loop over a batch -/

theorem encodedEvents_traceAfter (env : Env) (w : wsClient) (events : List publisher.Event)
    (tr : Trace) : encodedEvents (traceAfter env w events tr) = encodedEvents tr ++ events := by
  induction events generalizing tr with
  | nil => simp [traceAfter]
  | cons ev rest ih => simp [traceAfter, ih, encodedEvents_publishEvent]

theorem writes_traceAfter_length (env : Env) (w : wsClient) (events : List publisher.Event)
    (tr : Trace) :
    (writes (traceAfter env w events tr)).length ≤ (writes tr).length + events.length := by
  induction events generalizing tr with
  | nil => simp [traceAfter]
  | cons ev rest ih =>
    have h1 := ih (publishEvent env w ev tr).1
    have h2 := writes_publishEvent_length env w ev tr
    simp only [traceAfter, List.length_cons]
    omega

theorem traceAfter_append (env : Env) (w : wsClient) (a b : List publisher.Event) (tr : Trace) :
    traceAfter env w (a ++ b) tr = traceAfter env w b (traceAfter env w a tr) := by
  induction a generalizing tr with
  | nil => rfl
  | cons ev rest ih => simp [traceAfter, ih]

/-- The loop leaves the completion calls of the trace as they were. -/
theorem completions_PublishEvents (env : Env) (w : wsClient) (events : List publisher.Event)
    (tr : Trace) : completions (PublishEvents env w events tr).2.2 = completions tr := by
  induction events generalizing tr with
  | nil => rfl
  | cons ev rest ih =>
    unfold PublishEvents
    rcases hx : publishEvent env w ev tr with ⟨tr1, err⟩
    have hc := completions_publishEvent env w ev tr
    rw [hx] at hc
    cases err with
    | some e => simpa using hc
    | none => simp only; rw [ih tr1]; exact hc

/-- The loop, when the event at index `k` is the first on which `publishEvent`
returns an error. -/
theorem PublishEvents_at_first_error (env : Env) (w : wsClient) :
    ∀ (events : List publisher.Event) (k : Nat) (tr : Trace) (e : Error)
      (hk : k < events.length),
      (∀ i (hi : i < k),
        (publishEvent env w (events.get ⟨i, Nat.lt_trans hi hk⟩)
          (traceAfter env w (events.take i) tr)).2 = none) →
      (publishEvent env w (events.get ⟨k, hk⟩) (traceAfter env w (events.take k) tr)).2
        = some e →
      PublishEvents env w events tr =
        (events.drop k, some e, traceAfter env w (events.take (k + 1)) tr) := by
  intro events
  induction events with
  | nil => intro k tr e hk; simp at hk
  | cons ev rest ih =>
    intro k tr e hk hpre hfail
    cases k with
    | zero =>
      simp only [List.get_eq_getElem, List.getElem_cons_zero, List.take_zero, traceAfter]
        at hfail
      unfold PublishEvents
      rcases hx : publishEvent env w ev tr with ⟨tr1, err⟩
      rw [hx] at hfail
      simp only at hfail
      subst hfail
      simp [traceAfter, hx]
    | succ k =>
      have h0 := hpre 0 (Nat.succ_pos k)
      simp only [List.get_eq_getElem, List.getElem_cons_zero, List.take_zero, traceAfter]
        at h0
      have hk1 : k < rest.length := by simpa using hk
      have hrec := ih k (publishEvent env w ev tr).1 e hk1
        (fun i hi => by
          have := hpre (i + 1) (Nat.succ_lt_succ hi)
          simpa [traceAfter] using this)
        (by simpa [traceAfter] using hfail)
      unfold PublishEvents
      rcases hx : publishEvent env w ev tr with ⟨tr1, err⟩
      rw [hx] at h0 hrec
      simp only at h0
      subst h0
      simp only [List.drop_succ_cons, List.take_succ_cons, traceAfter, hx]
      exact hrec

/-- A non-nil error of `publishEvent` comes after an `encode` without error. -/
theorem encode_ok_of_publishEvent_error (env : Env) (w : wsClient) (event : publisher.Event)
    (tr : Trace) (e : Error) (h : (publishEvent env w event tr).2 = some e) :
    (encode env w event.Content).2 = none := by
  cases hx : (encode env w event.Content).2 with
  | none => rfl
  | some e1 =>
    rw [publishEvent_of_encode_error env w event tr e1 hx] at h
    cases h

/-- The head of a retry set returned by the loop is an event that `encode`
accepted, and the loop returned an error with it. -/
theorem PublishEvents_head (env : Env) (w : wsClient) (events : List publisher.Event)
    (tr : Trace) (ev : publisher.Event)
    (h : (PublishEvents env w events tr).1.head? = some ev) :
    (encode env w ev.Content).2 = none ∧ (PublishEvents env w events tr).2.1 ≠ none := by
  induction events generalizing tr with
  | nil => simp [PublishEvents] at h
  | cons x rest ih =>
    unfold PublishEvents at h ⊢
    rcases hx : publishEvent env w x tr with ⟨tr1, err⟩
    rw [hx] at h
    cases err with
    | some e =>
      simp only [List.head?_cons, Option.some.injEq] at h
      subst h
      have : (publishEvent env w x tr).2 = some e := by rw [hx]
      exact ⟨encode_ok_of_publishEvent_error env w x tr e this, by simp⟩
    | none => exact ih tr1 h

/-! ## The encoder -/

/-- With a `log` map and a string message shorter than `MaxLen`, `encode` is
`encodeInner` on the host map, or on the nil map when `host` is absent or is
not a map. -/
theorem encode_eq_encodeInner (env : Env) (w : wsClient) (event : beat.Event)
    (logMap : MapStr) (s : String)
    (hlog : event.Fields.lookup "log" = some (Value.mapStr logMap))
    (hmsg : event.Fields.lookup "message" = some (Value.str s))
    (hlen : goLen s < w.MaxLen) :
    encode env w event =
      encodeInner env w event.Timestamp s logMap
        ((asMapStr (event.Fields.lookup "host")).getD []) := by
  unfold encode
  simp only [GetValue, hlog, hmsg, asMapStr, asString]
  rw [if_neg (not_le.mpr hlen)]
  cases hh : event.Fields.lookup "host" with
  | none => rfl
  | some hv => cases hv <;> rfl

/-- With a `log` map and a string message of length at least `MaxLen`, `encode`
returns a nil payload and a nil error. -/
theorem encode_too_long (env : Env) (w : wsClient) (event : beat.Event)
    (logMap : MapStr) (s : String)
    (hlog : event.Fields.lookup "log" = some (Value.mapStr logMap))
    (hmsg : event.Fields.lookup "message" = some (Value.str s))
    (hlen : w.MaxLen ≤ goLen s) :
    encode env w event = (none, none) := by
  unfold encode
  simp only [GetValue, hlog, hmsg, asMapStr, asString]
  rw [if_pos hlen]

/-- On a valid `log` map, `logMapConvert` returns the offset and the path. -/
theorem logMapConvert_ok (logMap fileMap : MapStr) (offset : Int) (path : String)
    (hoff : logMap.lookup "offset" = some (Value.int64 offset))
    (hfile : logMap.lookup "file" = some (Value.mapStr fileMap))
    (hpath : fileMap.lookup "path" = some (Value.str path)) :
    logMapConvert logMap = (offset, path, none) := by
  simp [logMapConvert, GetValue, hoff, hfile, hpath, asInt64, asMapStr, asString]

/-- On a valid `host` map, `hostMapConvert` returns the lists and the
architecture. -/
theorem hostMapConvert_ok (hostMap : MapStr) (ips macs : List String) (arch : String)
    (hip : hostMap.lookup "ip" = some (Value.strList ips))
    (hmac : hostMap.lookup "mac" = some (Value.strList macs))
    (harch : hostMap.lookup "architecture" = some (Value.str arch)) :
    hostMapConvert hostMap = (ips, macs, arch, none) := by
  simp [hostMapConvert, GetValue, hip, hmac, harch, asStringSlice, asString]

/-- When one of `ip`, `mac`, `architecture` is missing from the host map or has
another type than expected, `hostMapConvert` returns an error. -/
theorem hostMapConvert_error (hostMap : MapStr)
    (hbad : ¬ ∃ ips macs arch, hostMap.lookup "ip" = some (Value.strList ips) ∧
      hostMap.lookup "mac" = some (Value.strList macs) ∧
      hostMap.lookup "architecture" = some (Value.str arch)) :
    ∃ e, (hostMapConvert hostMap).2.2.2 = some e := by
  unfold hostMapConvert
  simp only [GetValue]
  cases hip : hostMap.lookup "ip" with
  | none => exact ⟨_, rfl⟩
  | some ipv =>
    cases ipv with
    | strList ips =>
      simp only [asStringSlice]
      cases hmac : hostMap.lookup "mac" with
      | none => exact ⟨_, rfl⟩
      | some macv =>
        cases macv with
        | strList macs =>
          simp only
          cases harch : hostMap.lookup "architecture" with
          | none => exact ⟨_, rfl⟩
          | some av =>
            cases av with
            | str arch => exact absurd ⟨ips, macs, arch, hip, hmac, harch⟩ hbad
            | int64 n => exact ⟨_, rfl⟩
            | strList l => exact ⟨_, rfl⟩
            | mapStr m => exact ⟨_, rfl⟩
            | other t => exact ⟨_, rfl⟩
        | str s => exact ⟨_, rfl⟩
        | int64 n => exact ⟨_, rfl⟩
        | mapStr m => exact ⟨_, rfl⟩
        | other t => exact ⟨_, rfl⟩
    | str s => exact ⟨_, rfl⟩
    | int64 n => exact ⟨_, rfl⟩
    | mapStr m => exact ⟨_, rfl⟩
    | other t => exact ⟨_, rfl⟩

/-- When `hostMapConvert` returns an error on the host map, `encodeInner` returns
a nil payload and an error. -/
theorem encodeInner_host_error (env : Env) (w : wsClient) (time : Time) (s : String)
    (logMap hostMap : MapStr) (e : Error) (h : (hostMapConvert hostMap).2.2.2 = some e) :
    ∃ e1, encodeInner env w time s logMap hostMap = (none, some e1) := by
  unfold encodeInner
  rcases hl : logMapConvert logMap with ⟨offset, file, lerr⟩
  cases lerr with
  | some le => exact ⟨le, rfl⟩
  | none =>
    rcases hh : hostMapConvert hostMap with ⟨ips, macs, arch, herr⟩
    rw [hh] at h
    simp only at h
    subst h
    exact ⟨e, rfl⟩

/-- With a `log` map and a string message of length at least `MaxLen`,
`publishEvent` writes a text frame with an empty payload and returns what the
write returned. -/
theorem publishEvent_too_long (env : Env) (w : wsClient) (event : publisher.Event)
    (logMap : MapStr) (s : String) (tr : Trace)
    (hlog : event.Content.Fields.lookup "log" = some (Value.mapStr logMap))
    (hmsg : event.Content.Fields.lookup "message" = some (Value.str s))
    (hlen : w.MaxLen ≤ goLen s) :
    publishEvent env w event tr =
      (tr ++ [Effect.encoded event,
          Effect.write [] (env.conn (tr ++ [Effect.encoded event]) [])],
        env.conn (tr ++ [Effect.encoded event]) []) := by
  have henc := encode_too_long env w event.Content logMap s hlog hmsg hlen
  have := publishEvent_of_encode_ok env w event tr (by rw [henc])
  rw [henc] at this
  exact this

/-- On a valid `log` map and a valid host map, `encodeInner` returns what
`json.Marshal` returns on the record filled from its arguments, whose `Hostname`
is left at its zero value. -/
theorem encodeInner_ok (env : Env) (w : wsClient) (time : Time) (s : String)
    (logMap fileMap hostMap : MapStr) (offset : Int) (path arch : String)
    (ips macs : List String)
    (hoff : logMap.lookup "offset" = some (Value.int64 offset))
    (hfile : logMap.lookup "file" = some (Value.mapStr fileMap))
    (hpath : fileMap.lookup "path" = some (Value.str path))
    (hip : hostMap.lookup "ip" = some (Value.strList ips))
    (hmac : hostMap.lookup "mac" = some (Value.strList macs))
    (harch : hostMap.lookup "architecture" = some (Value.str arch)) :
    encodeInner env w time s logMap hostMap =
      env.jsonMarshal
        { Timestamp := time, Message := s, FileName := path, FileOffset := offset,
          Hostname := "", IpList := ips, MacList := macs, Arch := arch } := by
  unfold encodeInner
  rw [logMapConvert_ok logMap fileMap offset path hoff hfile hpath,
    hostMapConvert_ok hostMap ips macs arch hip hmac harch]
  rfl

/-! ## The sample serializer with a parser -/

theorem map_ofNat_toNat (cs : List Char) : cs.map (Char.ofNat ∘ Char.toNat) = cs := by
  induction cs with
  | nil => rfl
  | cons c cs ih => simp [ih, Char.ofNat_toNat]

theorem strOfCode_strCode (s : String) : strOfCode (strCode s) = s := by
  cases s with
  | mk cs =>
    simp only [strOfCode, strCode, List.map_map]
    congr 1
    exact map_ofNat_toNat cs

theorem map_strOfCode_strCode (l : List String) : (l.map strCode).map strOfCode = l := by
  induction l with
  | nil => rfl
  | cons s l ih => simp [strOfCode_strCode] at ih ⊢; exact ih

theorem ofTuple_toTuple (v : LogOutput) : LogOutput.ofTuple v.toTuple = v := by
  cases v
  simp only [LogOutput.ofTuple, LogOutput.toTuple, strOfCode_strCode, map_strOfCode_strCode]

theorem envRoundTrip_lawful : envRoundTrip.UnmarshalInvertsMarshal := by
  intro v b h
  have hb : b = Nat.digits 256 (Encodable.encode v.toTuple) := by
    have h1 : (Except.ok (Nat.digits 256 (Encodable.encode v.toTuple)) : Except Error Bytes)
        = Except.ok b := h
    injection h1 with h2
    exact h2.symm
  show numberedUnmarshal b = some v
  unfold numberedUnmarshal
  rw [hb, Nat.ofDigits_digits, Encodable.encodek, Option.map_some', ofTuple_toTuple]

/-! ## Claims -/

/-- C2: when the event at index `k` is the first whose write fails (the first on
which `publishEvent` returns an error, which is the error of its write),
`PublishEvents` returns exactly `events[k:]` with that error; the trace it leaves
is the one left by visiting the events `0..k` only, so the events handed to
`encode` are exactly those at indices `0..k`, at most `k + 1` writes are made
and the failed write is the last call; for `k = 0` the whole batch is
returned. -/
theorem PublishEvents_returns_suffix_from_first_failed_write (env : Env) (w : wsClient)
    (events : List publisher.Event) (k : Nat) (tr : Trace) (e : Error)
    (hk : k < events.length)
    (hpre : ∀ i (hi : i < k),
      (publishEvent env w (events.get ⟨i, Nat.lt_trans hi hk⟩)
        (traceAfter env w (events.take i) tr)).2 = none)
    (hfail :
      (publishEvent env w (events.get ⟨k, hk⟩) (traceAfter env w (events.take k) tr)).2
        = some e) :
    (PublishEvents env w events tr).1 = events.drop k ∧
      (PublishEvents env w events tr).2.1 = some e ∧
      (PublishEvents env w events tr).2.2 = traceAfter env w (events.take (k + 1)) tr ∧
      encodedEvents (PublishEvents env w events tr).2.2
        = encodedEvents tr ++ events.take (k + 1) ∧
      (writes (PublishEvents env w events tr).2.2).length ≤ (writes tr).length + (k + 1) ∧
      (∃ d, (PublishEvents env w events tr).2.2.getLast? = some (Effect.write d (some e))) ∧
      (k = 0 → (PublishEvents env w events tr).1 = events) := by
  have hmain := PublishEvents_at_first_error env w events k tr e hk hpre hfail
  have hlen : (events.take (k + 1)).length = k + 1 := by
    rw [List.length_take]; omega
  have hsplit : events.take (k + 1) = events.take k ++ [events.get ⟨k, hk⟩] := by
    rw [List.take_succ]
    simp [List.getElem?_eq_getElem hk]
  refine ⟨by rw [hmain], by rw [hmain], by rw [hmain], ?_, ?_, ?_, ?_⟩
  · rw [hmain]; exact encodedEvents_traceAfter env w _ tr
  · rw [hmain]
    have := writes_traceAfter_length env w (events.take (k + 1)) tr
    rw [hlen] at this
    exact this
  · rw [hmain]
    simp only [hsplit, traceAfter_append, traceAfter]
    exact publishEvent_error_last env w _ _ e hfail
  · intro h0
    rw [hmain, h0]
    rfl

/-- C2, on a batch of three events over a connection that fails its second
write: the retry set is the last two events. -/
theorem PublishEvents_returns_suffix_from_first_failed_write_witness :
    (PublishEvents (envFailAt 1) client10 [evGood, evTwo, evThree] []).1 = [evTwo, evThree] ∧
      (PublishEvents (envFailAt 1) client10 [evGood, evTwo, evThree] []).2.1
        = some "broken pipe" ∧
      encodedEvents (PublishEvents (envFailAt 1) client10 [evGood, evTwo, evThree] []).2.2
        = [evGood, evTwo] :=
  have h := PublishEvents_returns_suffix_from_first_failed_write (envFailAt 1) client10
    [evGood, evTwo, evThree] 1 [] "broken pipe" (by decide)
    (fun i hi => by
      have hi0 : i = 0 := by omega
      subst hi0
      rfl)
    rfl
  ⟨h.1, h.2.1, h.2.2.2.1⟩

/-- C6: when `encode` returns an error for an event, `publishEvent` makes no write
and returns nil; the loop goes on with the next event; the event is the head of
no retry set that `PublishEvents` returns; and the error that `Publish` returns
for a batch starting with it is the one of the rest of the batch. -/
theorem publishEvent_absorbs_encode_error (env : Env) (w : wsClient) (event : publisher.Event)
    (tr : Trace) (e : Error) (h : (encode env w event.Content).2 = some e) :
    publishEvent env w event tr = (tr ++ [Effect.encoded event], none) ∧
      writes (publishEvent env w event tr).1 = writes tr ∧
      (∀ rest, PublishEvents env w (event :: rest) tr
        = PublishEvents env w rest (tr ++ [Effect.encoded event])) ∧
      (∀ events tr0, (PublishEvents env w events tr0).1.head? ≠ some event) ∧
      (∀ rest, (Publish env w (event :: rest) tr).2
        = (PublishEvents env w rest
            (tr ++ [Effect.newBatch (rest.length + 1)] ++ [Effect.encoded event])).2.1) := by
  have hp : ∀ t, publishEvent env w event t = (t ++ [Effect.encoded event], none) :=
    fun t => publishEvent_of_encode_error env w event t e h
  refine ⟨hp tr, ?_, ?_, ?_, ?_⟩
  · rw [hp tr, writes_append]; simp [writes]
  · intro rest
    conv_lhs => unfold PublishEvents
    rw [hp tr]
  · intro events tr0 hhead
    have := (PublishEvents_head env w events tr0 event hhead).1
    rw [h] at this
    cases this
  · intro rest
    unfold Publish
    simp only [List.length_cons]
    conv_lhs => unfold PublishEvents
    rw [hp]
    simp only
    rcases PublishEvents env w rest
      (tr ++ [Effect.newBatch (rest.length + 1)] ++ [Effect.encoded event]) with ⟨f, err, t⟩
    cases err <;> rfl

/-- C6, on an event whose message is not a string: no write, nil error. -/
theorem publishEvent_absorbs_encode_error_witness :
    (encode envDown client10 evMessageNotString.Content).2 = some "cast log to str failed" ∧
      publishEvent envDown client10 evMessageNotString []
        = ([Effect.encoded evMessageNotString], none) ∧
      (Publish envDown client10 [evMessageNotString] []).2 = none :=
  ⟨rfl,
    (publishEvent_absorbs_encode_error envDown client10 evMessageNotString []
      "cast log to str failed" rfl).1,
    ((publishEvent_absorbs_encode_error envDown client10 evMessageNotString []
      "cast log to str failed" rfl).2.2.2.2 []).trans rfl⟩

/-- C7: one call of `Publish` adds exactly one completion call to the trace:
either one `batch.ACK()` or one `batch.RetryEvents(..)`, never both and never
none. -/
theorem Publish_exactly_one_completion (env : Env) (w : wsClient)
    (batch : List publisher.Event) (tr : Trace) :
    completions (Publish env w batch tr).1 = completions tr ++ [Effect.ack] ∨
      ∃ evs, completions (Publish env w batch tr).1 = completions tr ++ [Effect.retry evs] := by
  unfold Publish
  simp only
  have hc := completions_PublishEvents env w batch (tr ++ [Effect.newBatch batch.length])
  rcases hx : PublishEvents env w batch (tr ++ [Effect.newBatch batch.length])
    with ⟨f, err, t⟩
  rw [hx] at hc
  simp only [completions_append] at hc
  cases err with
  | some e =>
    left
    simp only [completions_append, hc]
    simp [completions]
  | none =>
    right
    refine ⟨f, ?_⟩
    simp only [completions_append, hc]
    simp [completions]

/-- C10: when the `message` field is absent or holds a value that is not a
string, `encode` returns a nil payload and a non-nil error, whatever the other
fields are. -/
theorem encode_rejects_missing_or_non_string_message (env : Env) (w : wsClient)
    (event : beat.Event)
    (h : event.Fields.lookup "message" = none ∨
      ∃ v, event.Fields.lookup "message" = some v ∧ ∀ s, v ≠ Value.str s) :
    ∃ e, encode env w event = (none, some e) := by
  unfold encode
  simp only [GetValue]
  cases hl : event.Fields.lookup "log" with
  | none => exact ⟨_, rfl⟩
  | some lv =>
    simp only
    cases hm : asMapStr (some lv) with
    | none => exact ⟨_, rfl⟩
    | some logMapVal =>
      simp only
      rcases h with h | ⟨v, hv, hns⟩
      · rw [h]; exact ⟨_, rfl⟩
      · rw [hv]
        simp only
        cases v with
        | str s => exact absurd rfl (hns s)
        | int64 n => exact ⟨_, rfl⟩
        | strList l => exact ⟨_, rfl⟩
        | mapStr m => exact ⟨_, rfl⟩
        | other t => exact ⟨_, rfl⟩

/-- C10, on an event whose message is an `int64`. -/
theorem encode_rejects_missing_or_non_string_message_witness :
    (∃ v, evMessageNotString.Content.Fields.lookup "message" = some v ∧
        ∀ s, v ≠ Value.str s) ∧
      ∃ e, encode envUp client10 evMessageNotString.Content = (none, some e) :=
  ⟨⟨Value.int64 7, rfl, fun s hs => by cases hs⟩,
    encode_rejects_missing_or_non_string_message envUp client10 evMessageNotString.Content
      (Or.inr ⟨Value.int64 7, rfl, fun s hs => by cases hs⟩)⟩

/-- C1: `Publish` at a batch of one well-formed event. Over a connection that
fails the write, `PublishEvents` returns the retry set `[evGood]` with the
error, and `Publish` calls `batch.ACK()` and not `batch.RetryEvents`; over a
connection that accepts the write, `PublishEvents` returns no error, and
`Publish` calls `batch.RetryEvents(nil)` and not `batch.ACK()`. -/
theorem Publish_acks_on_failure_and_retries_on_success :
    ((PublishEvents envDown client10 [evGood] []).1 = [evGood] ∧
        (PublishEvents envDown client10 [evGood] []).2.1 = some "broken pipe" ∧
        completions (Publish envDown client10 [evGood] []).1 = [Effect.ack] ∧
        (Publish envDown client10 [evGood] []).2 = some "broken pipe") ∧
      ((PublishEvents envUp client10 [evGood] []).2.1 = none ∧
        completions (Publish envUp client10 [evGood] []).1 = [Effect.retry []] ∧
        (Publish envUp client10 [evGood] []).2 = none) :=
  ⟨⟨rfl, rfl, rfl, rfl⟩, ⟨rfl, rfl, rfl⟩⟩

/-- C3: an event with a valid `log`, a valid `host` and a message of exactly
`MaxLen = 10` bytes. `encode` returns a nil payload and a nil error, so
`publishEvent` writes a text frame with an empty payload; when that write fails,
`PublishEvents` returns the event as the retry set. -/
theorem too_long_message_is_written_and_retried :
    goLen "0123456789" ≥ client10.MaxLen ∧
      encode envUp client10 evLong.Content = (none, none) ∧
      publishEvent envUp client10 evLong []
        = ([Effect.encoded evLong, Effect.write [] none], none) ∧
      PublishEvents envDown client10 [evLong] []
        = ([evLong], some "broken pipe",
            [Effect.encoded evLong, Effect.write [] (some "broken pipe")]) :=
  ⟨by decide, rfl, rfl, rfl⟩

/-- C4 as stated fails: an event with a valid `log`, a short message and a
`host` map whose `ip` is not a `[]string`. `encode` returns an error and no
payload, and `publishEvent` writes nothing. -/
theorem malformed_host_event_is_not_transmitted :
    logMapConvert [("offset", Value.int64 42),
        ("file", Value.mapStr [("path", Value.str "/var/log/a.log")])]
        = (42, "/var/log/a.log", none) ∧
      goLen "hi" < client10.MaxLen ∧
      encode envUp client10 evHostBadIp.Content = (none, some "cast failed") ∧
      (¬ ∃ b, encode envUp client10 evHostBadIp.Content = (some b, none)) ∧
      publishEvent envUp client10 evHostBadIp [] = ([Effect.encoded evHostBadIp], none) ∧
      writes (publishEvent envUp client10 evHostBadIp []).1 = [] :=
  have henc : encode envUp client10 evHostBadIp.Content = (none, some "cast failed") := rfl
  ⟨rfl, by decide, henc, (by rintro ⟨b, hb⟩; rw [henc] at hb; cases hb), rfl, rfl⟩

/-- C4, amended: for an event with a valid `log` map and a string message
shorter than `MaxLen` whose `host` field is a map in which `ip`, `mac` or
`architecture` is missing or has another type than expected, `encode` returns
an error and no payload, and `publishEvent` makes no write and returns nil. -/
theorem encode_fails_on_malformed_host_map (env : Env) (w : wsClient)
    (event : publisher.Event) (logMap fileMap hostMap : MapStr) (offset : Int)
    (path s : String) (tr : Trace)
    (hlog : event.Content.Fields.lookup "log" = some (Value.mapStr logMap))
    (hoff : logMap.lookup "offset" = some (Value.int64 offset))
    (hfile : logMap.lookup "file" = some (Value.mapStr fileMap))
    (hpath : fileMap.lookup "path" = some (Value.str path))
    (hmsg : event.Content.Fields.lookup "message" = some (Value.str s))
    (hlen : goLen s < w.MaxLen)
    (hhost : event.Content.Fields.lookup "host" = some (Value.mapStr hostMap))
    (hbad : ¬ ∃ ips macs arch, hostMap.lookup "ip" = some (Value.strList ips) ∧
      hostMap.lookup "mac" = some (Value.strList macs) ∧
      hostMap.lookup "architecture" = some (Value.str arch)) :
    (∃ e, encode env w event.Content = (none, some e)) ∧
      publishEvent env w event tr = (tr ++ [Effect.encoded event], none) ∧
      writes (publishEvent env w event tr).1 = writes tr := by
  have hlogok := logMapConvert_ok logMap fileMap offset path hoff hfile hpath
  obtain ⟨e0, he0⟩ := hostMapConvert_error hostMap hbad
  have henc := encode_eq_encodeInner env w event.Content logMap s hlog hmsg hlen
  rw [hhost] at henc
  simp only [asMapStr, Option.getD_some] at henc
  obtain ⟨e1, he1⟩ := encodeInner_host_error env w event.Content.Timestamp s logMap hostMap e0 he0
  rw [he1] at henc
  have hp := publishEvent_of_encode_error env w event tr e1 (by rw [henc])
  refine ⟨⟨e1, henc⟩, hp, ?_⟩
  rw [hp, writes_append]
  simp [writes]

/-- C4, amended, on a host map without `mac`. -/
theorem encode_fails_on_malformed_host_map_witness :
    (¬ ∃ ips macs arch,
        List.lookup "ip" [("ip", Value.strList ["10.0.0.1"])] = some (Value.strList ips) ∧
        List.lookup "mac" [("ip", Value.strList ["10.0.0.1"])] = some (Value.strList macs) ∧
        List.lookup "architecture" [("ip", Value.strList ["10.0.0.1"])]
          = some (Value.str arch)) ∧
      publishEvent envUp client10
        ⟨{ Timestamp := ⟨9000⟩,
           Fields := [("message", Value.str "hi"), ("log", sampleLog),
             ("host", Value.mapStr [("ip", Value.strList ["10.0.0.1"])])] }⟩ []
        = ([Effect.encoded
            ⟨{ Timestamp := ⟨9000⟩,
               Fields := [("message", Value.str "hi"), ("log", sampleLog),
                 ("host", Value.mapStr [("ip", Value.strList ["10.0.0.1"])])] }⟩], none) :=
  have hbad : ¬ ∃ ips macs arch,
      List.lookup "ip" [("ip", Value.strList ["10.0.0.1"])] = some (Value.strList ips) ∧
      List.lookup "mac" [("ip", Value.strList ["10.0.0.1"])] = some (Value.strList macs) ∧
      List.lookup "architecture" [("ip", Value.strList ["10.0.0.1"])]
        = some (Value.str arch) :=
    fun ⟨_, _, _, _, hmac, _⟩ => by cases hmac
  ⟨hbad,
    (encode_fails_on_malformed_host_map envUp client10
      ⟨{ Timestamp := ⟨9000⟩,
         Fields := [("message", Value.str "hi"), ("log", sampleLog),
           ("host", Value.mapStr [("ip", Value.strList ["10.0.0.1"])])] }⟩
      [("offset", Value.int64 42),
        ("file", Value.mapStr [("path", Value.str "/var/log/a.log")])]
      [("path", Value.str "/var/log/a.log")]
      [("ip", Value.strList ["10.0.0.1"])] 42 "/var/log/a.log" "hi" []
      rfl rfl rfl rfl rfl (by decide) rfl hbad).2.1⟩

/-- C5: an event whose `log` map has neither `offset` nor `file` and whose
message has 12 bytes, with `MaxLen = 10`. `logMapConvert` fails on the map, yet
`encode` returns a nil payload and a nil error before it is called, so
`publishEvent` writes a text frame with an empty payload; when that write fails,
`publishEvent` returns the error, the loop stops and `PublishEvents` returns the
event as the retry set. -/
theorem event_without_offset_is_written_and_retried :
    (logMapConvert []).2.2 = some ErrKeyNotFound ∧
      encode envUp client10 evNoOffsetLong.Content = (none, none) ∧
      publishEvent envUp client10 evNoOffsetLong []
        = ([Effect.encoded evNoOffsetLong, Effect.write [] none], none) ∧
      publishEvent envDown client10 evNoOffsetLong []
        = ([Effect.encoded evNoOffsetLong, Effect.write [] (some "broken pipe")],
            some "broken pipe") ∧
      (PublishEvents envDown client10 [evNoOffsetLong, evGood] []).1
        = [evNoOffsetLong, evGood] ∧
      encodedEvents (PublishEvents envDown client10 [evNoOffsetLong, evGood] []).2.2
        = [evNoOffsetLong] :=
  ⟨rfl, rfl, rfl, rfl, rfl, rfl⟩

/-- C8: on a batch with zero events `Publish` makes no write and returns a nil
error, and the completion call it makes is `batch.RetryEvents(nil)`, not
`batch.ACK()`. -/
theorem Publish_empty_batch_calls_retry (env : Env) (w : wsClient) (tr : Trace) :
    Publish env w [] tr = (tr ++ [Effect.newBatch 0, Effect.retry []], none) ∧
      writes (Publish env w [] tr).1 = writes tr ∧
      completions (Publish env w [] tr).1 = completions tr ++ [Effect.retry []] := by
  have h : Publish env w [] tr = (tr ++ [Effect.newBatch 0, Effect.retry []], none) := by
    simp [Publish, PublishEvents]
  refine ⟨h, ?_, ?_⟩
  · rw [h, writes_append]; simp [writes]
  · rw [h, completions_append]; simp [completions]

/-- C9 as stated fails: a well-formed event whose timestamp is in the year
10000, over a serializer that refuses such a timestamp as `json.Marshal` does.
`encode` returns the error of the serializer and no bytes, so there is nothing
to deserialize. -/
theorem encode_returns_no_bytes_for_year_10000 :
    (List.lookup "log" evYear10000.Content.Fields = some sampleLog ∧
        List.lookup "message" evYear10000.Content.Fields = some (Value.str "hi") ∧
        goLen "hi" < client10.MaxLen ∧
        List.lookup "host" evYear10000.Content.Fields = some sampleHost) ∧
      logMapConvert [("offset", Value.int64 42),
          ("file", Value.mapStr [("path", Value.str "/var/log/a.log")])]
        = (42, "/var/log/a.log", none) ∧
      hostMapConvert [("ip", Value.strList ["10.0.0.1"]), ("mac", Value.strList ["aa:bb"]),
          ("architecture", Value.str "x86_64")]
        = (["10.0.0.1"], ["aa:bb"], "x86_64", none) ∧
      encode envYearChecked client10 evYear10000.Content = (none, some ErrYearOutOfRange) ∧
      ¬ ∃ b, encode envYearChecked client10 evYear10000.Content = (some b, none) := by
  have henc : encode envYearChecked client10 evYear10000.Content
      = (none, some ErrYearOutOfRange) := by decide
  refine ⟨⟨rfl, rfl, by decide, rfl⟩, rfl, rfl, henc, ?_⟩
  rintro ⟨b, hb⟩
  rw [henc] at hb
  cases hb

/-- C9, amended: for a well-formed event (string message shorter than `MaxLen`,
`log` map with an `int64` offset and a string `file.path`, `host` map with
string lists `ip` and `mac` and a string `architecture`) there is one record,
whose timestamp, message, file offset, file name, ip list, mac list and arch
are those of the event and whose hostname is empty, such that for every
serializer `encode` returns exactly what `json.Marshal` returns on that record:
when `json.Marshal` refuses the record, `encode` returns its error and no
bytes; when it accepts the record, `encode` returns its bytes with a nil error,
and the bytes deserialize back to that record whenever `json.Unmarshal` inverts
`json.Marshal`. -/
theorem encode_marshals_record_of_event (w : wsClient) (event : beat.Event)
    (logMap fileMap hostMap : MapStr) (offset : Int) (path s arch : String)
    (ips macs : List String)
    (hlog : event.Fields.lookup "log" = some (Value.mapStr logMap))
    (hoff : logMap.lookup "offset" = some (Value.int64 offset))
    (hfile : logMap.lookup "file" = some (Value.mapStr fileMap))
    (hpath : fileMap.lookup "path" = some (Value.str path))
    (hmsg : event.Fields.lookup "message" = some (Value.str s))
    (hlen : goLen s < w.MaxLen)
    (hhost : event.Fields.lookup "host" = some (Value.mapStr hostMap))
    (hip : hostMap.lookup "ip" = some (Value.strList ips))
    (hmac : hostMap.lookup "mac" = some (Value.strList macs))
    (harch : hostMap.lookup "architecture" = some (Value.str arch)) :
    ∃ r : LogOutput,
      (r.Timestamp = event.Timestamp ∧ r.Message = s ∧ r.FileOffset = offset ∧
        r.FileName = path ∧ r.IpList = ips ∧ r.MacList = macs ∧ r.Arch = arch ∧
        r.Hostname = "") ∧
      ∀ env : Env,
        encode env w event = env.jsonMarshal r ∧
        (∀ e, env.Marshal r = Except.error e → encode env w event = (none, some e)) ∧
        (∀ b, env.Marshal r = Except.ok b →
          encode env w event = (some b, none) ∧
          (env.UnmarshalInvertsMarshal → env.Unmarshal b = some r)) := by
  refine ⟨LogOutput.mk event.Timestamp s path offset "" ips macs arch,
    ⟨rfl, rfl, rfl, rfl, rfl, rfl, rfl, rfl⟩, ?_⟩
  intro env
  have henc := encode_eq_encodeInner env w event logMap s hlog hmsg hlen
  rw [hhost] at henc
  simp only [asMapStr, Option.getD_some] at henc
  rw [encodeInner_ok env w event.Timestamp s logMap fileMap hostMap offset path arch ips macs
    hoff hfile hpath hip hmac harch] at henc
  refine ⟨henc, ?_, ?_⟩
  · intro e he
    rw [henc]
    simp only [Env.jsonMarshal, he]
  · intro b hb
    refine ⟨?_, fun hinv => hinv _ b hb⟩
    rw [henc]
    simp only [Env.jsonMarshal, hb]

/-- C9, amended, on a well-formed event: over the sample serializer that has a
parser the bytes deserialize back to the fields of the event, and over the
serializer that checks the year the event in the year 10000 gets the error. -/
theorem encode_marshals_record_of_event_witness :
    goLen "hi" < client10.MaxLen ∧
      (∃ b v, encode envRoundTrip client10 evGood.Content = (some b, none) ∧
        envRoundTrip.Unmarshal b = some v ∧
        v.Timestamp = evGood.Content.Timestamp ∧ v.Message = "hi" ∧ v.FileOffset = 42 ∧
        v.FileName = "/var/log/a.log" ∧ v.IpList = ["10.0.0.1"] ∧ v.MacList = ["aa:bb"] ∧
        v.Arch = "x86_64" ∧ v.Hostname = "") := by
  refine ⟨by decide, ?_⟩
  obtain ⟨r, ⟨h1, h2, h3, h4, h5, h6, h7, h8⟩, henv⟩ :=
    encode_marshals_record_of_event client10 evGood.Content
      [("offset", Value.int64 42),
        ("file", Value.mapStr [("path", Value.str "/var/log/a.log")])]
      [("path", Value.str "/var/log/a.log")]
      [("ip", Value.strList ["10.0.0.1"]), ("mac", Value.strList ["aa:bb"]),
        ("architecture", Value.str "x86_64")]
      42 "/var/log/a.log" "hi" "x86_64" ["10.0.0.1"] ["aa:bb"]
      rfl rfl rfl rfl rfl (by decide) rfl rfl rfl rfl
  obtain ⟨_, _, hok⟩ := henv envRoundTrip
  obtain ⟨hb, hinv⟩ := hok (Nat.digits 256 (Encodable.encode r.toTuple)) rfl
  exact ⟨_, r, hb, hinv envRoundTrip_lawful, h1, h2, h3, h4, h5, h6, h7, h8⟩

/-! ## The frames written by the loop -/

theorem newBatches_append (a b : Trace) : newBatches (a ++ b) = newBatches a ++ newBatches b := by
  induction a with
  | nil => rfl
  | cons x a ih => cases x <;> simp [newBatches, ih]

theorem sentFrames_append (a b : List (Bytes × Option Error)) :
    sentFrames (a ++ b) = sentFrames a ++ sentFrames b := by
  induction a with
  | nil => rfl
  | cons x a ih =>
    rcases x with ⟨d, e⟩
    cases e <;> simp [sentFrames, ih]

theorem sentFrames_map_ok (l : List Bytes) :
    sentFrames (l.map (fun d => (d, (none : Option Error)))) = l := by
  induction l with
  | nil => rfl
  | cons d l ih => simp [sentFrames, ih]

theorem framesOf_append (env : Env) (w : wsClient) (a b : List publisher.Event) :
    framesOf env w (a ++ b) = framesOf env w a ++ framesOf env w b := by
  induction a with
  | nil => rfl
  | cons ev a ih =>
    simp only [List.cons_append, framesOf]
    cases (encode env w ev.Content).2 <;> simp [ih]

/-- The loop on a non-empty batch whose first event is handled without error. -/
theorem PublishEvents_cons_ok (env : Env) (w : wsClient) (event : publisher.Event)
    (rest : List publisher.Event) (tr : Trace)
    (h : (publishEvent env w event tr).2 = none) :
    PublishEvents env w (event :: rest) tr
      = PublishEvents env w rest (publishEvent env w event tr).1 := by
  conv_lhs => unfold PublishEvents
  rcases hx : publishEvent env w event tr with ⟨tr1, err⟩
  rw [hx] at h
  simp only at h
  subst h
  rfl

/-- The loop on a non-empty batch whose first event fails. -/
theorem PublishEvents_cons_error (env : Env) (w : wsClient) (event : publisher.Event)
    (rest : List publisher.Event) (tr : Trace) (e : Error)
    (h : (publishEvent env w event tr).2 = some e) :
    PublishEvents env w (event :: rest) tr
      = (event :: rest, some e, (publishEvent env w event tr).1) := by
  conv_lhs => unfold PublishEvents
  rcases hx : publishEvent env w event tr with ⟨tr1, err⟩
  rw [hx] at h
  simp only at h
  subst h
  rfl

/-- The writes of the loop. Either it returns no error and an empty retry set,
and it has written the frames of the whole batch, all accepted; or it returns
the error of the write of an event `ev` that `encode` accepted, the retry set
starts at `ev`, and it has written the frames of the events before `ev`, all
accepted, and then the frame of `ev`, refused. -/
theorem PublishEvents_writes (env : Env) (w : wsClient) (events : List publisher.Event)
    (tr : Trace) :
    ((PublishEvents env w events tr).2.1 = none ∧ (PublishEvents env w events tr).1 = [] ∧
        writes (PublishEvents env w events tr).2.2
          = writes tr ++ (framesOf env w events).map (fun d => (d, none))) ∨
      ∃ pre ev post e, events = pre ++ ev :: post ∧
        (PublishEvents env w events tr).1 = ev :: post ∧
        (PublishEvents env w events tr).2.1 = some e ∧
        (encode env w ev.Content).2 = none ∧
        writes (PublishEvents env w events tr).2.2
          = writes tr ++ (framesOf env w pre).map (fun d => (d, none))
              ++ [(payloadOf env w ev, some e)] := by
  induction events generalizing tr with
  | nil => left; simp [PublishEvents, framesOf]
  | cons x rest ih =>
    cases henc : (encode env w x.Content).2 with
    | some e0 =>
      have hp := publishEvent_of_encode_error env w x tr e0 henc
      have hstep := PublishEvents_cons_ok env w x rest tr (by rw [hp])
      rw [hp] at hstep
      have hw : writes (tr ++ [Effect.encoded x]) = writes tr := by
        rw [writes_append]; simp [writes]
      rcases ih (tr ++ [Effect.encoded x]) with ⟨h1, h2, h3⟩ | ⟨pre, ev, post, e, h1, h2, h3, h4, h5⟩
      · left
        rw [hstep]
        refine ⟨h1, h2, ?_⟩
        rw [h3, hw]
        simp [framesOf, henc]
      · right
        refine ⟨x :: pre, ev, post, e, by simp [h1], ?_, ?_, h4, ?_⟩
        · rw [hstep]; exact h2
        · rw [hstep]; exact h3
        · rw [hstep, h5, hw]
          simp [framesOf, henc]
    | none =>
      have hp := publishEvent_of_encode_ok env w x tr henc
      cases hc : env.conn (tr ++ [Effect.encoded x]) ((encode env w x.Content).1.getD []) with
      | some e =>
        right
        rw [hc] at hp
        have hstep := PublishEvents_cons_error env w x rest tr e (by rw [hp])
        rw [hp] at hstep
        refine ⟨[], x, rest, e, rfl, by rw [hstep], by rw [hstep], henc, ?_⟩
        rw [hstep]
        simp [writes_append, writes, framesOf, payloadOf]
      | none =>
        rw [hc] at hp
        have hstep := PublishEvents_cons_ok env w x rest tr (by rw [hp])
        rw [hp] at hstep
        have hw : writes (tr ++ [Effect.encoded x,
            Effect.write ((encode env w x.Content).1.getD []) none])
              = writes tr ++ [(payloadOf env w x, none)] := by
          simp [writes_append, writes, payloadOf]
        rcases ih (tr ++ [Effect.encoded x,
            Effect.write ((encode env w x.Content).1.getD []) none])
          with ⟨h1, h2, h3⟩ | ⟨pre, ev, post, e, h1, h2, h3, h4, h5⟩
        · left
          rw [hstep]
          refine ⟨h1, h2, ?_⟩
          rw [h3, hw]
          simp [framesOf, henc]
        · right
          refine ⟨x :: pre, ev, post, e, by simp [h1], ?_, ?_, h4, ?_⟩
          · rw [hstep]; exact h2
          · rw [hstep]; exact h3
          · rw [hstep, h5, hw]
            simp [framesOf, henc]

/-- The loop only adds calls to the trace, none of them a report to the
observer. -/
theorem PublishEvents_trace (env : Env) (w : wsClient) (events : List publisher.Event)
    (tr : Trace) :
    ∃ added, (PublishEvents env w events tr).2.2 = tr ++ added ∧ newBatches added = [] := by
  induction events generalizing tr with
  | nil => exact ⟨[], by simp [PublishEvents], rfl⟩
  | cons x rest ih =>
    have hone : ∃ a1, (publishEvent env w x tr).1 = tr ++ a1 ∧ newBatches a1 = [] := by
      rcases publishEvent_trace env w x tr with ⟨h, _⟩ | ⟨d, h⟩
      · exact ⟨_, h, rfl⟩
      · exact ⟨_, h, rfl⟩
    obtain ⟨a1, ha1, hn1⟩ := hone
    cases herr : (publishEvent env w x tr).2 with
    | some e =>
      rw [PublishEvents_cons_error env w x rest tr e herr]
      exact ⟨a1, ha1, hn1⟩
    | none =>
      rw [PublishEvents_cons_ok env w x rest tr herr]
      obtain ⟨a2, ha2, hn2⟩ := ih (publishEvent env w x tr).1
      refine ⟨a1 ++ a2, ?_, ?_⟩
      · rw [ha2, ha1, List.append_assoc]
      · rw [newBatches_append, hn1, hn2]; rfl

theorem newWrites_of_append (tr tr1 : Trace) (ws : List (Bytes × Option Error))
    (h : writes tr1 = writes tr ++ ws) : newWrites tr tr1 = ws := by
  unfold newWrites
  rw [h, List.drop_left]

/-- The encoder reads the environment through `json.Marshal` only. -/
theorem encode_congr (env env2 : Env) (w : wsClient) (event : beat.Event)
    (hM : env2.Marshal = env.Marshal) : encode env2 w event = encode env w event := by
  simp only [encode, encodeInner, Env.jsonMarshal, hM]

theorem framesOf_congr (env env2 : Env) (w : wsClient) (events : List publisher.Event)
    (hM : env2.Marshal = env.Marshal) : framesOf env2 w events = framesOf env w events := by
  induction events with
  | nil => rfl
  | cons ev rest ih => simp only [framesOf, payloadOf, encode_congr env env2 w _ hM, ih]

/-- Over a connection that accepts every write the loop returns no error. -/
theorem PublishEvents_never_fails (env : Env) (w : wsClient) (hup : ∀ t d, env.conn t d = none)
    (events : List publisher.Event) (tr : Trace) :
    (PublishEvents env w events tr).2.1 = none := by
  induction events generalizing tr with
  | nil => rfl
  | cons x rest ih =>
    have hx : (publishEvent env w x tr).2 = none := by
      cases henc : (encode env w x.Content).2 with
      | some e0 => rw [publishEvent_of_encode_error env w x tr e0 henc]
      | none => rw [publishEvent_of_encode_ok env w x tr henc]; exact hup _ _
    rw [PublishEvents_cons_ok env w x rest tr hx]
    exact ih _

/-- Over a connection that accepts every write the loop writes the frames of the
whole batch. -/
theorem PublishEvents_writes_up (env : Env) (w : wsClient) (hup : ∀ t d, env.conn t d = none)
    (events : List publisher.Event) (tr : Trace) :
    newWrites tr (PublishEvents env w events tr).2.2
      = (framesOf env w events).map (fun d => (d, none)) := by
  rcases PublishEvents_writes env w events tr with ⟨_, _, h3⟩ | ⟨pre, ev, post, e, _, _, h3, _, _⟩
  · exact newWrites_of_append _ _ _ h3
  · rw [PublishEvents_never_fails env w hup events tr] at h3
    cases h3

/-- The two results of `Publish` in terms of the loop started after the report
to the observer. -/
theorem Publish_unfold (env : Env) (w : wsClient) (batch : List publisher.Event) (tr : Trace) :
    (Publish env w batch tr).2
        = (PublishEvents env w batch (tr ++ [Effect.newBatch batch.length])).2.1 ∧
      ∃ c, (Publish env w batch tr).1
        = (PublishEvents env w batch (tr ++ [Effect.newBatch batch.length])).2.2 ++ [c] ∧
        (c = Effect.ack ∨ ∃ evs, c = Effect.retry evs) := by
  unfold Publish
  simp only
  rcases PublishEvents env w batch (tr ++ [Effect.newBatch batch.length]) with ⟨f, err, t⟩
  cases err with
  | some e => exact ⟨rfl, Effect.ack, rfl, Or.inl rfl⟩
  | none => exact ⟨rfl, Effect.retry f, rfl, Or.inr ⟨f, rfl⟩⟩

theorem writes_Publish (env : Env) (w : wsClient) (batch : List publisher.Event) (tr : Trace) :
    writes (Publish env w batch tr).1
      = writes (PublishEvents env w batch (tr ++ [Effect.newBatch batch.length])).2.2 := by
  obtain ⟨_, c, hc, hcc⟩ := Publish_unfold env w batch tr
  rw [hc, writes_append]
  rcases hcc with h | ⟨evs, h⟩ <;> subst h <;> simp [writes]

theorem writes_newBatch (tr : Trace) (n : Nat) : writes (tr ++ [Effect.newBatch n]) = writes tr := by
  rw [writes_append]; simp [writes]

/-! ## Claims on the order of frames and on errors -/

/-- The text frames that `PublishEvents` writes are in batch order; an event for
which `encode` returns a nil payload and a nil error is written as an empty
frame. Either
no write fails, and the writes are the payloads of all the events in batch
order, leaving out exactly the events for which `encode` returned an error; or
the write of the event at index `k` is the first to fail, the retry set is
`events[k:]`, and the writes are the payloads of the events `0..k` in batch
order, leaving out exactly the events for which `encode` returned an error, the
last one being the refused frame of event `k`. The payloads form a filtered
copy of the batch prefix, so no event is written twice or out of order. -/
theorem PublishEvents_writes_frames_in_batch_order (env : Env) (w : wsClient)
    (events : List publisher.Event) (tr : Trace) :
    ((PublishEvents env w events tr).2.1 = none ∧
        newWrites tr (PublishEvents env w events tr).2.2
          = (framesOf env w events).map (fun d => (d, none))) ∨
      ∃ (k : Nat) (e : Error) (hk : k < events.length),
        (PublishEvents env w events tr).2.1 = some e ∧
        (PublishEvents env w events tr).1 = events.drop k ∧
        (encode env w (events.get ⟨k, hk⟩).Content).2 = none ∧
        newWrites tr (PublishEvents env w events tr).2.2
          = (framesOf env w (events.take k)).map (fun d => (d, none))
              ++ [(payloadOf env w (events.get ⟨k, hk⟩), some e)] ∧
        (newWrites tr (PublishEvents env w events tr).2.2).map Prod.fst
          = framesOf env w (events.take (k + 1)) := by
  rcases PublishEvents_writes env w events tr with ⟨h1, _, h3⟩ | ⟨pre, ev, post, e, h1, h2, h3, h4, h5⟩
  · left
    exact ⟨h1, newWrites_of_append _ _ _ h3⟩
  · right
    have hk : pre.length < events.length := by rw [h1]; simp
    have hget : events.get ⟨pre.length, hk⟩ = ev := by
      subst h1
      simp only [List.get_eq_getElem]
      rw [List.getElem_append_right (Nat.le_refl _)]
      simp
    have htake : events.take pre.length = pre := by
      subst h1; simp
    have hdrop : events.drop pre.length = ev :: post := by
      subst h1; simp
    have htake1 : events.take (pre.length + 1) = pre ++ [ev] := by
      subst h1; simp [List.take_append_eq_append_take]
    have hnew := newWrites_of_append tr _ _ (by rw [h5, List.append_assoc])
    refine ⟨pre.length, e, hk, h3, by rw [h2, hdrop], by rw [hget]; exact h4, ?_, ?_⟩
    · rw [hnew, hget, htake]
    · rw [hnew, htake1, framesOf_append]
      simp [framesOf, h4, Function.comp_def]

/-- C12: `Publish` returns a non-nil error exactly when a write of this call
failed, and the error is the one of that write; it returns nil exactly when
every write of this call was accepted; and when `encode` returns an error for
every event of the batch, `Publish` makes no write and returns nil. -/
theorem Publish_error_iff_write_failed (env : Env) (w : wsClient)
    (batch : List publisher.Event) (tr : Trace) :
    (∀ e, (Publish env w batch tr).2 = some e ↔
        ∃ d, (d, some e) ∈ newWrites tr (Publish env w batch tr).1) ∧
      ((Publish env w batch tr).2 = none ↔
        ∀ x ∈ newWrites tr (Publish env w batch tr).1, x.2 = none) ∧
      ((∀ ev ∈ batch, (encode env w ev.Content).2 ≠ none) →
        (Publish env w batch tr).2 = none ∧ newWrites tr (Publish env w batch tr).1 = []) := by
  have herr := (Publish_unfold env w batch tr).1
  have hwr := writes_Publish env w batch tr
  have hnb := writes_newBatch tr batch.length
  rcases PublishEvents_writes env w batch (tr ++ [Effect.newBatch batch.length])
    with ⟨h1, _, h3⟩ | ⟨pre, ev, post, e0, h1, _, h3, h4, h5⟩
  · have hnew : newWrites tr (Publish env w batch tr).1
        = (framesOf env w batch).map (fun d => (d, none)) :=
      newWrites_of_append _ _ _ (by rw [hwr, h3, hnb])
    rw [herr, h1, hnew]
    refine ⟨?_, ?_, ?_⟩
    · intro e
      constructor
      · intro h; cases h
      · rintro ⟨d, hd⟩
        simp at hd
    · constructor
      · intro _ x hx
        simp only [List.mem_map] at hx
        obtain ⟨d, _, hd⟩ := hx
        rw [← hd]
      · intro _; rfl
    · intro hall
      refine ⟨rfl, ?_⟩
      have hf : ∀ l : List publisher.Event, (∀ ev ∈ l, (encode env w ev.Content).2 ≠ none) →
          framesOf env w l = [] := by
        intro l
        induction l with
        | nil => intro _; rfl
        | cons a l ih =>
          intro hl
          have ha := hl a (List.mem_cons_self a l)
          cases hae : (encode env w a.Content).2 with
          | none => exact absurd hae ha
          | some e1 =>
            simp only [framesOf, hae]
            exact ih (fun ev hev => hl ev (List.mem_cons_of_mem a hev))
      rw [hf batch hall]
      rfl
  · have hnew : newWrites tr (Publish env w batch tr).1
        = (framesOf env w pre).map (fun d => (d, none)) ++ [(payloadOf env w ev, some e0)] :=
      newWrites_of_append _ _ _ (by rw [hwr, h5, hnb, List.append_assoc])
    rw [herr, h3, hnew]
    refine ⟨?_, ?_, ?_⟩
    · intro e
      constructor
      · intro h
        injection h with h
        subst h
        exact ⟨payloadOf env w ev, by simp⟩
      · rintro ⟨d, hd⟩
        simp at hd
        rw [hd.2]
    · constructor
      · intro h; cases h
      · intro h
        have := h (payloadOf env w ev, some e0) (by simp)
        cases this
    · intro hall
      have hev : ev ∈ batch := by rw [h1]; simp
      exact absurd h4 (hall ev hev)

/-- C16: `Publish` reports the batch size to the observer exactly once, with the
count `len(batch.Events())`; the report is the first call it makes, before any
call of `encode` or write, whatever the batch and whatever the connection
answers. -/
theorem Publish_reports_batch_size_once_first (env : Env) (w : wsClient)
    (batch : List publisher.Event) (tr : Trace) :
    (∃ rest, (Publish env w batch tr).1 = tr ++ Effect.newBatch batch.length :: rest ∧
        newBatches rest = []) ∧
      newBatches (Publish env w batch tr).1 = newBatches tr ++ [batch.length] := by
  obtain ⟨_, c, hc, hcc⟩ := Publish_unfold env w batch tr
  obtain ⟨added, ha, hn⟩ := PublishEvents_trace env w batch (tr ++ [Effect.newBatch batch.length])
  have hcn : newBatches [c] = [] := by
    rcases hcc with h | ⟨evs, h⟩ <;> subst h <;> rfl
  have hshape : (Publish env w batch tr).1
      = tr ++ Effect.newBatch batch.length :: (added ++ [c]) := by
    rw [hc, ha]; simp
  have hrest : newBatches (added ++ [c]) = [] := by
    rw [newBatches_append, hn, hcn]; rfl
  refine ⟨⟨added ++ [c], hshape, hrest⟩, ?_⟩
  rw [hshape, newBatches_append]
  simp [newBatches, hrest]

/-- C18: retry composition. When the write of the event at index `k` is the
first to fail, the frames accepted during `PublishEvents(events)` are the frames
of the events before `k`; the frames written by `PublishEvents` on the returned
suffix `events[k:]` over a connection that accepts every write (with the same
serializer) are the frames of the events from `k` onward; and the two,
concatenated, are exactly the frames that a single `PublishEvents(events)` writes
over a connection that accepts every write. -/
theorem PublishEvents_retry_composition (env env2 : Env) (w : wsClient)
    (events : List publisher.Event) (k : Nat) (tr tr2 tr3 : Trace) (e : Error)
    (hk : k < events.length)
    (hpre : ∀ i (hi : i < k),
      (publishEvent env w (events.get ⟨i, Nat.lt_trans hi hk⟩)
        (traceAfter env w (events.take i) tr)).2 = none)
    (hfail :
      (publishEvent env w (events.get ⟨k, hk⟩) (traceAfter env w (events.take k) tr)).2
        = some e)
    (hM : env2.Marshal = env.Marshal) (hup : ∀ t d, env2.conn t d = none) :
    (PublishEvents env w events tr).1 = events.drop k ∧
      sentFrames (newWrites tr (PublishEvents env w events tr).2.2)
        = framesOf env w (events.take k) ∧
      sentFrames (newWrites tr2
          (PublishEvents env2 w (PublishEvents env w events tr).1 tr2).2.2)
        = framesOf env w (events.drop k) ∧
      sentFrames (newWrites tr (PublishEvents env w events tr).2.2)
          ++ sentFrames (newWrites tr2
            (PublishEvents env2 w (PublishEvents env w events tr).1 tr2).2.2)
        = sentFrames (newWrites tr3 (PublishEvents env2 w events tr3).2.2) := by
  have hmain := PublishEvents_at_first_error env w events k tr e hk hpre hfail
  have hretry : (PublishEvents env w events tr).1 = events.drop k := by rw [hmain]
  have hfirst : sentFrames (newWrites tr (PublishEvents env w events tr).2.2)
      = framesOf env w (events.take k) := by
    rcases PublishEvents_writes env w events tr
      with ⟨h1, _, _⟩ | ⟨pre, ev, post, e1, h1, h2, _, _, h5⟩
    · rw [hmain] at h1; cases h1
    · have hd : events.drop k = ev :: post := by rw [← hretry, h2]
      have hlen : k = pre.length := by
        have h3 := congrArg List.length hd
        have h4 := congrArg List.length h1
        simp only [List.length_drop, List.length_cons, List.length_append] at h3 h4
        omega
      have htake : events.take k = pre := by
        rw [hlen, h1]; simp
      rw [newWrites_of_append tr _ _ (by rw [h5, List.append_assoc]), htake,
        sentFrames_append, sentFrames_map_ok]
      simp [sentFrames]
  have hsecond : ∀ l t, sentFrames (newWrites t (PublishEvents env2 w l t).2.2)
      = framesOf env w l := by
    intro l t
    rw [PublishEvents_writes_up env2 w hup l t, sentFrames_map_ok,
      framesOf_congr env env2 w l hM]
  refine ⟨hretry, hfirst, ?_, ?_⟩
  · rw [hsecond, hretry]
  · rw [hfirst, hsecond, hsecond, hretry, ← framesOf_append, List.take_append_drop]

/-- C18, on a batch of three events whose second write fails, retried over a
connection that accepts every write. -/
theorem PublishEvents_retry_composition_witness :
    (PublishEvents (envFailAt 1) client10 [evGood, evTwo, evThree] []).1 = [evTwo, evThree] ∧
      sentFrames (newWrites []
          (PublishEvents (envFailAt 1) client10 [evGood, evTwo, evThree] []).2.2)
          ++ sentFrames (newWrites []
            (PublishEvents envUp client10
              (PublishEvents (envFailAt 1) client10 [evGood, evTwo, evThree] []).1 []).2.2)
        = sentFrames (newWrites []
            (PublishEvents envUp client10 [evGood, evTwo, evThree] []).2.2) :=
  have h := PublishEvents_retry_composition (envFailAt 1) envUp client10
    [evGood, evTwo, evThree] 1 [] [] [] "broken pipe" (by decide)
    (fun i hi => by
      have hi0 : i = 0 := by omega
      subst hi0
      rfl)
    rfl rfl (fun _ _ => rfl)
  ⟨h.1, h.2.2.2⟩

/-! ## The cases of the encoder -/

/-- When `offset` is missing or is not an `int64`, or `file` is not a map with a
string `path`, `logMapConvert` returns an error. -/
theorem logMapConvert_error (logMap : MapStr)
    (hbad : ¬ ∃ (offset : Int) (fileMap : MapStr) (path : String),
      logMap.lookup "offset" = some (Value.int64 offset) ∧
      logMap.lookup "file" = some (Value.mapStr fileMap) ∧
      fileMap.lookup "path" = some (Value.str path)) :
    ∃ e, (logMapConvert logMap).2.2 = some e := by
  unfold logMapConvert
  simp only [GetValue]
  cases hoff : logMap.lookup "offset" with
  | none => exact ⟨_, rfl⟩
  | some ov =>
    cases ov with
    | int64 offset =>
      simp only [asInt64]
      cases hfile : logMap.lookup "file" with
      | none => exact ⟨_, rfl⟩
      | some fv =>
        cases fv with
        | mapStr fileMap =>
          simp only [asMapStr]
          cases hpath : fileMap.lookup "path" with
          | none => exact ⟨_, rfl⟩
          | some pv =>
            cases pv with
            | str path => exact absurd ⟨offset, fileMap, path, hoff, hfile, hpath⟩ hbad
            | int64 n => exact ⟨_, rfl⟩
            | strList l => exact ⟨_, rfl⟩
            | mapStr m => exact ⟨_, rfl⟩
            | other t => exact ⟨_, rfl⟩
        | str s => exact ⟨_, rfl⟩
        | int64 n => exact ⟨_, rfl⟩
        | strList l => exact ⟨_, rfl⟩
        | other t => exact ⟨_, rfl⟩
    | str s => exact ⟨_, rfl⟩
    | strList l => exact ⟨_, rfl⟩
    | mapStr m => exact ⟨_, rfl⟩
    | other t => exact ⟨_, rfl⟩

/-- The two outcomes of `encodeInner`: an error that does not depend on the
serializer, or the serialization of the record filled from a valid `log` map
and a valid host map, with an empty `Hostname`. -/
theorem encodeInner_cases (w : wsClient) (time : Time) (s : String) (logMap hostMap : MapStr) :
    (∃ e, ∀ env, encodeInner env w time s logMap hostMap = (none, some e)) ∨
      ∃ (fileMap : MapStr) (offset : Int) (path arch : String) (ips macs : List String),
        logMap.lookup "offset" = some (Value.int64 offset) ∧
        logMap.lookup "file" = some (Value.mapStr fileMap) ∧
        fileMap.lookup "path" = some (Value.str path) ∧
        hostMap.lookup "ip" = some (Value.strList ips) ∧
        hostMap.lookup "mac" = some (Value.strList macs) ∧
        hostMap.lookup "architecture" = some (Value.str arch) ∧
        ∀ env, encodeInner env w time s logMap hostMap =
          env.jsonMarshal
            { Timestamp := time, Message := s, FileName := path, FileOffset := offset,
              Hostname := "", IpList := ips, MacList := macs, Arch := arch } := by
  by_cases hl : ∃ (offset : Int) (fileMap : MapStr) (path : String),
      logMap.lookup "offset" = some (Value.int64 offset) ∧
      logMap.lookup "file" = some (Value.mapStr fileMap) ∧
      fileMap.lookup "path" = some (Value.str path)
  · obtain ⟨offset, fileMap, path, hoff, hfile, hpath⟩ := hl
    by_cases hh : ∃ ips macs arch, hostMap.lookup "ip" = some (Value.strList ips) ∧
        hostMap.lookup "mac" = some (Value.strList macs) ∧
        hostMap.lookup "architecture" = some (Value.str arch)
    · obtain ⟨ips, macs, arch, hip, hmac, harch⟩ := hh
      right
      exact ⟨fileMap, offset, path, arch, ips, macs, hoff, hfile, hpath, hip, hmac, harch,
        fun env => encodeInner_ok env w time s logMap fileMap hostMap offset path arch ips macs
          hoff hfile hpath hip hmac harch⟩
    · left
      obtain ⟨e, he⟩ := hostMapConvert_error hostMap hh
      refine ⟨e, fun env => ?_⟩
      unfold encodeInner
      rw [logMapConvert_ok logMap fileMap offset path hoff hfile hpath]
      rcases hx : hostMapConvert hostMap with ⟨ips, macs, arch, herr⟩
      rw [hx] at he
      simp only at he
      subst he
      rfl
  · left
    obtain ⟨e, he⟩ := logMapConvert_error logMap hl
    refine ⟨e, fun env => ?_⟩
    unfold encodeInner
    rcases hx : logMapConvert logMap with ⟨offset, file, lerr⟩
    rw [hx] at he
    simp only at he
    subst he
    rfl

/-- The two outcomes of `encode`: a nil payload, with an error or without,
whatever the serializer; or, on an event that meets every condition of
`WellFormed`, the serialization of the record filled from the event, with an
empty `Hostname`. -/
theorem encode_cases (w : wsClient) (event : beat.Event) :
    (∃ err, ∀ env, encode env w event = (none, err)) ∨
      ∃ (logMap fileMap hostMap : MapStr) (offset : Int) (path s arch : String)
        (ips macs : List String),
        (event.Fields.lookup "log" = some (Value.mapStr logMap) ∧
          logMap.lookup "offset" = some (Value.int64 offset) ∧
          logMap.lookup "file" = some (Value.mapStr fileMap) ∧
          fileMap.lookup "path" = some (Value.str path) ∧
          event.Fields.lookup "message" = some (Value.str s) ∧
          goLen s < w.MaxLen ∧
          event.Fields.lookup "host" = some (Value.mapStr hostMap) ∧
          hostMap.lookup "ip" = some (Value.strList ips) ∧
          hostMap.lookup "mac" = some (Value.strList macs) ∧
          hostMap.lookup "architecture" = some (Value.str arch)) ∧
        ∀ env, encode env w event =
          env.jsonMarshal
            { Timestamp := event.Timestamp, Message := s, FileName := path,
              FileOffset := offset, Hostname := "", IpList := ips, MacList := macs,
              Arch := arch } := by
  cases hlog : event.Fields.lookup "log" with
  | none =>
    left; exact ⟨some ErrKeyNotFound, fun env => by simp only [encode, GetValue, hlog]⟩
  | some lv =>
    have hnotmap : (∀ m, lv ≠ Value.mapStr m) →
        ∃ err, ∀ env, encode env w event = (none, err) := by
      intro hn
      refine ⟨some "cast log meta to map failed", fun env => ?_⟩
      cases lv with
      | mapStr m => exact absurd rfl (hn m)
      | str s => simp only [encode, GetValue, hlog, asMapStr]
      | int64 n => simp only [encode, GetValue, hlog, asMapStr]
      | strList l => simp only [encode, GetValue, hlog, asMapStr]
      | other t => simp only [encode, GetValue, hlog, asMapStr]
    cases lv with
    | str s => left; exact hnotmap (fun m h => by cases h)
    | int64 n => left; exact hnotmap (fun m h => by cases h)
    | strList l => left; exact hnotmap (fun m h => by cases h)
    | other t => left; exact hnotmap (fun m h => by cases h)
    | mapStr logMap =>
      cases hmsg : event.Fields.lookup "message" with
      | none =>
        left
        exact ⟨some ErrKeyNotFound, fun env => by
          simp only [encode, GetValue, hlog, asMapStr, hmsg]⟩
      | some mv =>
        have hnotstr : (∀ s, mv ≠ Value.str s) →
            ∃ err, ∀ env, encode env w event = (none, err) := by
          intro hn
          refine ⟨some "cast log to str failed", fun env => ?_⟩
          cases mv with
          | str s => exact absurd rfl (hn s)
          | int64 n => simp only [encode, GetValue, hlog, asMapStr, hmsg, asString]
          | strList l => simp only [encode, GetValue, hlog, asMapStr, hmsg, asString]
          | mapStr m => simp only [encode, GetValue, hlog, asMapStr, hmsg, asString]
          | other t => simp only [encode, GetValue, hlog, asMapStr, hmsg, asString]
        cases mv with
        | int64 n => left; exact hnotstr (fun s h => by cases h)
        | strList l => left; exact hnotstr (fun s h => by cases h)
        | mapStr m => left; exact hnotstr (fun s h => by cases h)
        | other t => left; exact hnotstr (fun s h => by cases h)
        | str s =>
          by_cases hlen : goLen s < w.MaxLen
          · have henc := fun env => encode_eq_encodeInner env w event logMap s hlog hmsg hlen
            rcases encodeInner_cases w event.Timestamp s logMap
                ((asMapStr (event.Fields.lookup "host")).getD [])
              with ⟨e, he⟩ | ⟨fileMap, offset, path, arch, ips, macs, hoff, hfile, hpath, hip,
                hmac, harch, hrec⟩
            · left
              exact ⟨some e, fun env => by rw [henc env, he env]⟩
            · right
              have hhost : ∃ hostMap, event.Fields.lookup "host" = some (Value.mapStr hostMap) := by
                cases hh : event.Fields.lookup "host" with
                | none => rw [hh] at hip; simp [asMapStr] at hip
                | some hv =>
                  cases hv with
                  | mapStr m => exact ⟨m, rfl⟩
                  | str x => rw [hh] at hip; simp [asMapStr] at hip
                  | int64 x => rw [hh] at hip; simp [asMapStr] at hip
                  | strList x => rw [hh] at hip; simp [asMapStr] at hip
                  | other x => rw [hh] at hip; simp [asMapStr] at hip
              obtain ⟨hostMap, hhost⟩ := hhost
              rw [hhost] at hip hmac harch hrec
              simp only [asMapStr, Option.getD_some] at hip hmac harch hrec
              exact ⟨logMap, fileMap, hostMap, offset, path, s, arch, ips, macs,
                ⟨rfl, hoff, hfile, hpath, rfl, hlen, hhost, hip, hmac, harch⟩,
                fun env => by rw [henc env, hhost]; exact hrec env⟩
          · left
            exact ⟨none, fun env =>
              encode_too_long env w event logMap s hlog hmsg (not_lt.mp hlen)⟩

/-! ## Claims on the encoder -/

/-- C15: whenever `encode` produces a payload for an event, the payload is the
serialization of a record whose `Hostname` is the empty string; the record is
the same for every serializer, and carries the timestamp of the event. -/
theorem encode_record_has_empty_hostname (env : Env) (w : wsClient) (event : beat.Event)
    (b : Bytes) (h : (encode env w event).1 = some b) :
    ∃ v : LogOutput, v.Hostname = "" ∧ env.Marshal v = Except.ok b ∧
      v.Timestamp = event.Timestamp ∧
      ∀ env2, encode env2 w event = env2.jsonMarshal v := by
  rcases encode_cases w event with ⟨err, he⟩ |
    ⟨logMap, fileMap, hostMap, offset, path, s, arch, ips, macs, _, hrec⟩
  · rw [he env] at h; cases h
  · refine ⟨_, rfl, ?_, rfl, hrec⟩
    rw [hrec env] at h
    unfold Env.jsonMarshal at h
    cases hm : env.Marshal
        { Timestamp := event.Timestamp, Message := s, FileName := path,
          FileOffset := offset, Hostname := "", IpList := ips, MacList := macs,
          Arch := arch } with
    | error e => rw [hm] at h; cases h
    | ok b1 =>
      rw [hm] at h
      simp only [Option.some.injEq] at h
      rw [h]

/-- C15, on a well-formed event. -/
theorem encode_record_has_empty_hostname_witness :
    (encode envUp client10 evGood.Content).1
        = some [104, 105, 47, 118, 97, 114, 47, 108, 111, 103, 47, 97, 46, 108, 111, 103] ∧
      ∃ v : LogOutput, v.Hostname = "" ∧
        envUp.Marshal v
          = Except.ok [104, 105, 47, 118, 97, 114, 47, 108, 111, 103, 47, 97, 46, 108, 111, 103] ∧
        v.Timestamp = evGood.Content.Timestamp ∧
        ∀ env2, encode env2 client10 evGood.Content = env2.jsonMarshal v :=
  ⟨rfl, encode_record_has_empty_hostname envUp client10 evGood.Content
    [104, 105, 47, 118, 97, 114, 47, 108, 111, 103, 47, 97, 46, 108, 111, 103] rfl⟩

/-- C17, amended: characterisation of `encode`. Over a `json.Marshal` that accepts the
records carrying the timestamp of the event and returns non-empty bytes for
them, `encode` returns a non-empty payload with a nil error if and only if
`log` is a map, `message` is a string shorter than `MaxLen`, `log.offset` is an
`int64`, `log.file` is a map whose `path` is a string, and `host` is a map
whose `ip` and `mac` are string lists and whose `architecture` is a string; in
every other case the payload is nil (with an error, or with none). -/
theorem encode_payload_iff_wellFormed (env : Env) (w : wsClient) (event : beat.Event)
    (hM : ∀ v : LogOutput, v.Timestamp = event.Timestamp →
      ∃ b, env.Marshal v = Except.ok b ∧ b ≠ []) :
    ((∃ b, b ≠ [] ∧ encode env w event = (some b, none)) ↔ WellFormed w event) ∧
      (¬ WellFormed w event → (encode env w event).1 = none) := by
  have hcases := encode_cases w event
  refine ⟨⟨?_, ?_⟩, ?_⟩
  · rintro ⟨b, _, hb⟩
    rcases hcases with ⟨err, he⟩ |
      ⟨logMap, fileMap, hostMap, offset, path, s, arch, ips, macs, hwf, _⟩
    · rw [he env] at hb; cases hb
    · exact ⟨logMap, fileMap, hostMap, offset, path, s, arch, ips, macs, hwf⟩
  · rintro ⟨logMap, fileMap, hostMap, offset, path, s, arch, ips, macs,
      hlog, hoff, hfile, hpath, hmsg, hlen, hhost, hip, hmac, harch⟩
    have henc := encode_eq_encodeInner env w event logMap s hlog hmsg hlen
    rw [hhost] at henc
    simp only [asMapStr, Option.getD_some] at henc
    rw [encodeInner_ok env w event.Timestamp s logMap fileMap hostMap offset path arch ips macs
      hoff hfile hpath hip hmac harch] at henc
    obtain ⟨b, hb, hne⟩ := hM
      { Timestamp := event.Timestamp, Message := s, FileName := path, FileOffset := offset,
        Hostname := "", IpList := ips, MacList := macs, Arch := arch } rfl
    refine ⟨b, hne, ?_⟩
    rw [henc]
    simp only [Env.jsonMarshal, hb]
  · intro hnot
    rcases hcases with ⟨err, he⟩ |
      ⟨logMap, fileMap, hostMap, offset, path, s, arch, ips, macs, hwf, _⟩
    · rw [he env]
    · exact absurd ⟨logMap, fileMap, hostMap, offset, path, s, arch, ips, macs, hwf⟩ hnot

/-- C17, amended, on a well-formed event over a serializer whose output is never
empty. -/
theorem encode_payload_iff_wellFormed_witness :
    (∀ v : LogOutput, v.Timestamp = evGood.Content.Timestamp →
        ∃ b, envBraced.Marshal v = Except.ok b ∧ b ≠ []) ∧
      ((∃ b, b ≠ [] ∧ encode envBraced client10 evGood.Content = (some b, none)) ↔
        WellFormed client10 evGood.Content) ∧
      ∃ b, b ≠ [] ∧ encode envBraced client10 evGood.Content = (some b, none) :=
  have hM : ∀ v : LogOutput, v.Timestamp = evGood.Content.Timestamp →
      ∃ b, envBraced.Marshal v = Except.ok b ∧ b ≠ [] :=
    fun _ _ => ⟨_, rfl, List.cons_ne_nil _ _⟩
  ⟨hM, (encode_payload_iff_wellFormed envBraced client10 evGood.Content hM).1,
    ⟨_, List.cons_ne_nil _ _, rfl⟩⟩

/-- C19: when `MaxLen` is zero or negative, `encode` returns a nil payload for
every event; for an event with a `log` map and a string message the length
check `len(message) >= MaxLen` holds and `encode` returns a nil payload with a
nil error. -/
theorem encode_no_payload_when_MaxLen_not_positive (env : Env) (w : wsClient)
    (event : beat.Event) (hmax : w.MaxLen ≤ 0) :
    (encode env w event).1 = none ∧
      ∀ logMap s, event.Fields.lookup "log" = some (Value.mapStr logMap) →
        event.Fields.lookup "message" = some (Value.str s) →
        w.MaxLen ≤ goLen s ∧ encode env w event = (none, none) := by
  have hnonneg : ∀ s : String, 0 ≤ goLen s := fun s => Int.ofNat_nonneg _
  refine ⟨?_, ?_⟩
  · rcases encode_cases w event with ⟨err, he⟩ |
      ⟨logMap, fileMap, hostMap, offset, path, s, arch, ips, macs, hwf, _⟩
    · rw [he env]
    · have hlen := hwf.2.2.2.2.2.1
      have := hnonneg s
      omega
  · intro logMap s hlog hmsg
    have hle : w.MaxLen ≤ goLen s := le_trans hmax (hnonneg s)
    exact ⟨hle, encode_too_long env w event logMap s hlog hmsg hle⟩

/-- C19, on a well-formed event with `MaxLen = 0`. -/
theorem encode_no_payload_when_MaxLen_not_positive_witness :
    client0.MaxLen ≤ 0 ∧ encode envUp client0 evGood.Content = (none, none) :=
  ⟨by decide,
    ((encode_no_payload_when_MaxLen_not_positive envUp client0 evGood.Content (by decide)).2
      _ "hi" rfl rfl).2⟩

/-! ## Claims on connecting and on the scenario of four events -/

/-- C13 as stated fails: with `ping_interval` left at zero and a dial that
succeeds, `Connect` stores the connection and then `time.NewTicker` is called
with a period of zero and panics, so `Connect` does not return nil. -/
theorem Connect_panics_on_zero_ping_interval :
    dialUp { Scheme := "ws", Host := "localhost:8080", Path := "/ws" } = (some 7, none) ∧
      tickerPeriod clientNoPing = 0 ∧
      Connect dialUp clientNoPing { conn := none, calls := [] }
        = ConnectResult.panicked
            { conn := some 7,
              calls := [ConnectCall.dial { Scheme := "ws", Host := "localhost:8080", Path := "/ws" },
                ConnectCall.newTicker 0] } ∧
      ∀ st, Connect dialUp clientNoPing { conn := none, calls := [] }
        ≠ ConnectResult.returned st none := by
  refine ⟨rfl, by decide, by decide, ?_⟩
  intro st h
  have hp : Connect dialUp clientNoPing { conn := none, calls := [] }
      = ConnectResult.panicked
          { conn := some 7,
            calls := [ConnectCall.dial { Scheme := "ws", Host := "localhost:8080", Path := "/ws" },
              ConnectCall.newTicker 0] } := by decide
  rw [hp] at h
  cases h

/-- C13, amended: when the dial fails, `Connect` calls `time.Sleep` once, for 10
seconds, makes no other call after the dial (no ticker, no keepalive task),
leaves `w.conn` as it was and returns the dial error; when the dial succeeds
and the ticker period `time.Duration(PingInterval) * time.Second` is positive,
`Connect` makes no call of `time.Sleep`, stores the new connection, starts the
keepalive task and returns nil. -/
theorem Connect_cools_down_on_failure_and_stores_on_success
    (dial : URL → Option ConnHandle × Option Error) (w : wsClient) (st : ClientState) :
    (∀ c e, dial { Scheme := w.Schema, Host := w.Host, Path := w.Path } = (c, some e) →
        Connect dial w st
          = ConnectResult.returned
              { conn := st.conn,
                calls := st.calls
                  ++ [ConnectCall.dial { Scheme := w.Schema, Host := w.Host, Path := w.Path }]
                  ++ [ConnectCall.sleep (10 * Second)] }
              (some e)) ∧
      (∀ c, dial { Scheme := w.Schema, Host := w.Host, Path := w.Path } = (c, none) →
        0 < tickerPeriod w →
        Connect dial w st
          = ConnectResult.returned
              { conn := c,
                calls := st.calls
                  ++ [ConnectCall.dial { Scheme := w.Schema, Host := w.Host, Path := w.Path }]
                  ++ [ConnectCall.newTicker (tickerPeriod w)]
                  ++ [ConnectCall.goKeepalive (tickerPeriod w)] }
              none) := by
  refine ⟨?_, ?_⟩
  · intro c e h
    simp only [Connect, h]
  · intro c h hpos
    simp only [Connect, h]
    rw [if_neg (not_le.mpr hpos)]

/-- C13, amended, on a dial that fails and on a dial that succeeds with
`ping_interval = 5`. -/
theorem Connect_cools_down_on_failure_and_stores_on_success_witness :
    (0 < tickerPeriod client10) ∧
      Connect dialDown client10 { conn := some 3, calls := [] }
        = ConnectResult.returned
            { conn := some 3,
              calls := [ConnectCall.dial { Scheme := "ws", Host := "localhost:8080", Path := "/ws" },
                ConnectCall.sleep 10000000000] }
            (some "connection refused") ∧
      Connect dialUp client10 { conn := none, calls := [] }
        = ConnectResult.returned
            { conn := some 7,
              calls := [ConnectCall.dial { Scheme := "ws", Host := "localhost:8080", Path := "/ws" },
                ConnectCall.newTicker 5000000000, ConnectCall.goKeepalive 5000000000] }
            none :=
  ⟨by decide,
    (Connect_cools_down_on_failure_and_stores_on_success dialDown client10
      { conn := some 3, calls := [] }).1 none "connection refused" rfl,
    (Connect_cools_down_on_failure_and_stores_on_success dialUp client10
      { conn := none, calls := [] }).2 (some 7) rfl (by decide)⟩

set_option maxRecDepth 100000 in
/-- C14: the scenario with `MaxLen = 200` and the batch of a valid event, an
event with a message of 500 bytes, a valid event and a valid event whose write
fails. `Publish` writes the records of the first and third events, writes a
text frame with an empty payload for the second, and the write of the fourth
fails; `PublishEvents` returns the retry set with the fourth event only; and
`Publish` ends by calling `batch.ACK()`, not `batch.RetryEvents`. -/
theorem Publish_scenario_of_four_events :
    goLen message500 = 500 ∧ client200.MaxLen = 200 ∧
      writes (Publish envScenario client200
          [scenarioEv0, scenarioEv1, scenarioEv2, scenarioEv3] []).1
        = [(("ev0".toList ++ "/var/log/a.log".toList).map Char.toNat, none),
            ([], none),
            (("ev2".toList ++ "/var/log/a.log".toList).map Char.toNat, none),
            (("ev3".toList ++ "/var/log/a.log".toList).map Char.toNat, some "broken pipe")] ∧
      (PublishEvents envScenario client200
          [scenarioEv0, scenarioEv1, scenarioEv2, scenarioEv3] [Effect.newBatch 4]).1
        = [scenarioEv3] ∧
      completions (Publish envScenario client200
          [scenarioEv0, scenarioEv1, scenarioEv2, scenarioEv3] []).1 = [Effect.ack] ∧
      (Publish envScenario client200
          [scenarioEv0, scenarioEv1, scenarioEv2, scenarioEv3] []).2 = some "broken pipe" :=
  ⟨by decide, rfl, rfl, rfl, rfl, rfl⟩

/-! ## Claims on frames of rejected events and on refused timestamps -/

/-- C11: a batch of a valid event, an event whose message has `MaxLen = 10`
bytes and a valid event, over a connection that accepts every write. The
length check of `encode` rejects the second event with a nil payload and a nil
error, and `PublishEvents` writes three frames, the second with an empty
payload: the frame of the rejected event is not left out. -/
theorem too_long_event_frame_is_not_left_out :
    goLen "0123456789" ≥ client10.MaxLen ∧
      encode envUp client10 evLong.Content = (none, none) ∧
      (PublishEvents envUp client10 [evGood, evLong, evTwo] []).2.1 = none ∧
      writes (PublishEvents envUp client10 [evGood, evLong, evTwo] []).2.2
        = [(("hi".toList ++ "/var/log/a.log".toList).map Char.toNat, none),
            ([], none),
            (("two".toList ++ "/var/log/a.log".toList).map Char.toNat, none)] ∧
      (writes (PublishEvents envUp client10 [evGood, evLong, evTwo] []).2.2).length = 3 :=
  ⟨by decide, rfl, rfl, rfl, rfl⟩

/-- C17 as stated fails: an event that meets every condition of the
characterisation and whose timestamp lies before the year 0, over a serializer
that refuses such a timestamp as `json.Marshal` does. `encode` returns an error
and no payload. -/
theorem wellFormed_event_refused_by_marshal :
    WellFormed client10 evBeforeYear0.Content ∧
      encode envYearChecked client10 evBeforeYear0.Content = (none, some ErrYearOutOfRange) ∧
      ¬ ∃ b, b ≠ [] ∧ encode envYearChecked client10 evBeforeYear0.Content = (some b, none) := by
  have henc : encode envYearChecked client10 evBeforeYear0.Content
      = (none, some ErrYearOutOfRange) := by decide
  refine ⟨?_, henc, ?_⟩
  · exact ⟨[("offset", Value.int64 42),
        ("file", Value.mapStr [("path", Value.str "/var/log/a.log")])],
      [("path", Value.str "/var/log/a.log")],
      [("ip", Value.strList ["10.0.0.1"]), ("mac", Value.strList ["aa:bb"]),
        ("architecture", Value.str "x86_64")],
      42, "/var/log/a.log", "hi", "x86_64", ["10.0.0.1"], ["aa:bb"],
      rfl, rfl, rfl, rfl, rfl, by decide, rfl, rfl, rfl, rfl⟩
  · rintro ⟨b, _, hb⟩
    rw [henc] at hb
    cases hb

end WsOutput
